import Mathlib

/-!
Verification of the openfga-graphviz-gen core: a shallow embedding of the
graph builder (writer.go, graph encoding), the cycle analyzer
(parseCycleInformation) and the model data types, together with theorems
settling the specification claims.

Sources embedded:
- writer.go: buildGraph, rewriteHandler, parseCycleInformation, Writer.
- the dot-encoding graph (AddOrGetNode, AddEdge, RemoveNodesWithNoEdges);
  the four-argument AddEdge variant used by writer.go is reconstructed from
  the three-argument version present in the sources (de-duplication on the
  (from, to, headlabel) triple, per-graph edge counter starting at 1) plus
  the style attribute taken by the current call sites and pinned by the
  repository's expected DOT outputs.
-/

deriving instance DecidableEq for Except

namespace OFGA

/-- One entry of the directly-related user types of a relation: the
`RelationReference` proto message (type, optional relation-or-wildcard,
optional condition; an absent condition is the empty string). -/
inductive RelOrWildcard where
  | rel (name : String)
  | wildcard
  deriving DecidableEq, Repr

structure RelationReference where
  type_ : String
  relOrWildcard : Option RelOrWildcard
  condition : String
  deriving DecidableEq, Repr

/-- The userset rewrite tree (`openfgav1.Userset`): the closed variant set
Direct (`this`), ComputedUserset, TupleToUserset, Union, Intersection,
Difference. -/
inductive Userset where
  | this
  | computedUserset (relation : String)
  | tupleToUserset (tupleset : String) (computedRelation : String)
  | union (children : List Userset)
  | intersection (children : List Userset)
  | difference (base subtract : Userset)

mutual

def Userset.beq : Userset → Userset → Bool
  | .this, .this => true
  | .computedUserset r, .computedUserset r2 => r == r2
  | .tupleToUserset a b, .tupleToUserset a2 b2 => a == a2 && b == b2
  | .union cs, .union cs2 => Userset.beqList cs cs2
  | .intersection cs, .intersection cs2 => Userset.beqList cs cs2
  | .difference b s, .difference b2 s2 => Userset.beq b b2 && Userset.beq s s2
  | _, _ => false

def Userset.beqList : List Userset → List Userset → Bool
  | [], [] => true
  | c :: cs, c2 :: cs2 => Userset.beq c c2 && Userset.beqList cs cs2
  | _, _ => false

end

mutual

theorem Userset.beq_iff : ∀ a b : Userset, Userset.beq a b = true ↔ a = b
  | .this, b => by cases b <;> simp [Userset.beq]
  | .computedUserset r, b => by cases b <;> simp [Userset.beq]
  | .tupleToUserset x y, b => by cases b <;> simp [Userset.beq]
  | .union cs, b => by
      cases b <;> simp [Userset.beq, Userset.beqList_iff cs]
  | .intersection cs, b => by
      cases b <;> simp [Userset.beq, Userset.beqList_iff cs]
  | .difference x y, b => by
      cases b <;> simp [Userset.beq, Userset.beq_iff x, Userset.beq_iff y]

theorem Userset.beqList_iff : ∀ a b : List Userset, Userset.beqList a b = true ↔ a = b
  | [], b => by cases b <;> simp [Userset.beqList]
  | c :: cs, b => by
      cases b <;> simp [Userset.beqList, Userset.beq_iff c, Userset.beqList_iff cs]

end

instance : DecidableEq Userset := fun a b =>
  decidable_of_iff (Userset.beq a b = true) (Userset.beq_iff a b)

/-- A type definition: the type name, the relation map (name to rewrite)
and its metadata (name to directly-related user types). The Go maps are
embedded as association lists; map semantics is lookup of the first
matching key. -/
structure TypeDefinition where
  type_ : String
  relations : List (String × Userset)
  metadata : List (String × List RelationReference)
  deriving DecidableEq

/-- The authorization model: an ordered collection of type definitions. -/
structure AuthorizationModel where
  typeDefinitions : List TypeDefinition
  deriving DecidableEq

/-- A line of the dot-encoding multigraph with its attributes: an empty
headlabel or style stands for the absent attribute. `seq` is the value of
the `label` attribute, the edge sequence number. -/
structure DotLine where
  src : String
  dst : String
  headlabel : String
  style : String
  seq : Nat
  deriving DecidableEq, Repr

/-- The dot-encoding graph: node labels in creation order (the gonum node
id of a label is its index), lines in creation order, and the per-graph
edge counter. -/
structure DotGraph where
  nodes : List String
  lines : List DotLine
  edgeCounter : Nat
  deriving DecidableEq, Repr

/-- Lexicographic strict order on character lists by code point: the
byte-wise comparison of Go strings (UTF-8 bytes compare like code
points). -/
def keyLt : List Char → List Char → Bool
  | _, [] => false
  | [], _ :: _ => true
  | a :: as, b :: bs => a.toNat < b.toNat || (a.toNat = b.toNat && keyLt as bs)

/-- The string order used by the builder's sorts (`sort.Strings` and the
type-name comparator): code-point lexicographic less-or-equal. -/
def strLe (a b : String) : Bool := !(keyLt b.data a.data)

def emptyGraph : DotGraph := ⟨[], [], 0⟩

/-- `dotEncodingGraph.AddOrGetNode`: return the graph unchanged when the
label is already interned, otherwise append a fresh node. -/
def addOrGetNode (g : DotGraph) (lbl : String) : DotGraph :=
  if lbl ∈ g.nodes then g else { g with nodes := g.nodes ++ [lbl] }

/-- Does the graph already hold a line with the given
(from, to, headlabel) triple? (the duplicate check of `AddEdge`). -/
def hasLine (g : DotGraph) (src dst hl : String) : Bool :=
  g.lines.any fun l => l.src = src && l.dst = dst && l.headlabel = hl

/-- `dotEncodingGraph.AddEdge`: intern both endpoints, skip when a line
with the same (from, to, headlabel) already exists, otherwise increment
the per-graph counter and append the line with the counter as sequence
number. The style of a duplicate call is discarded. -/
def addEdge (g : DotGraph) (src dst hl st : String) : DotGraph :=
  let g1 := addOrGetNode (addOrGetNode g src) dst
  if hasLine g1 src dst hl then g1
  else
    { g1 with
      edgeCounter := g1.edgeCounter + 1
      lines := g1.lines ++ [⟨src, dst, hl, st, g1.edgeCounter + 1⟩] }

/-- `dotEncodingGraph.RemoveNodesWithNoEdges`: drop every node that is
neither the source nor the target of a line. -/
def removeNodesWithNoEdges (g : DotGraph) : DotGraph :=
  { g with nodes := g.nodes.filter fun n => g.lines.any fun l => l.src = n || l.dst = n }

/-- The build aborts (the Go code panics) with a model lookup failure
identifying the offending type and relation. -/
inductive BuildErr where
  | modelLookupError (typeName relation : String)
  deriving DecidableEq, Repr

def findTypeDef (m : AuthorizationModel) (t : String) : Option TypeDefinition :=
  m.typeDefinitions.find? fun td => td.type_ = t

/-- Modelled from the spec: the Type-System Adapter query "what is the
definition of relation R on type T" (`typesystem.GetRelation`, external);
it fails with a lookup error naming the type and relation when either
cannot be resolved, and otherwise returns the relation's name. -/
def getRelationE (m : AuthorizationModel) (t r : String) : Except BuildErr String :=
  match findTypeDef m t with
  | none => .error (.modelLookupError t r)
  | some td => if (td.relations.lookup r).isSome then .ok r else .error (.modelLookupError t r)

def metadataOf (m : AuthorizationModel) (t r : String) : List RelationReference :=
  match findTypeDef m t with
  | none => []
  | some td => (td.metadata.lookup r).getD []

/-- Modelled from the spec: the Type-System Adapter query "which user
types/relations may be directly assigned to relation R on type T"
(`typesystem.GetDirectlyRelatedUserTypes`, external): resolve the
relation, then return its directly-related user types. -/
def getDirectlyRelated (m : AuthorizationModel) (t r : String) :
    Except BuildErr (List RelationReference) := do
  let _ ← getRelationE m t r
  pure (metadataOf m t r)

def relationNodeName (t r : String) : String := t ++ "#" ++ r

/-- The decorated source label of a conditioned reference:
`" Type[with Condition]"`, a distinct node from the plain type. -/
def decorate (ref : RelationReference) : String :=
  if ref.condition = "" then ref.type_
  else " " ++ ref.type_ ++ "[with " ++ ref.condition ++ "]"

/-- One directly-related reference of the `Userset_This` handler case:
source is `"Type#Rel"` when a sub-relation is set, `"Type:*"` when the
wildcard is set, else the bare (possibly decorated) type; no edge for an
empty sub-relation name. -/
def thisCaseStep (rn : String) (g : DotGraph) (ref : RelationReference) : DotGraph :=
  let at_ := decorate ref
  match ref.relOrWildcard with
  | some (.rel rr) => if rr = "" then g else addEdge g (at_ ++ "#" ++ rr) rn "" ""
  | some .wildcard => addEdge g (at_ ++ ":*") rn "" ""
  | none => addEdge g at_ rn "" ""

/-- The `Userset_This` case of `rewriteHandler`. -/
def handleThis (m : AuthorizationModel) (tn rel : String) (g : DotGraph) :
    Except BuildErr DotGraph := do
  let refs ← getDirectlyRelated m tn rel
  pure (refs.foldl (thisCaseStep (relationNodeName tn rel)) g)

/-- The `Userset_ComputedUserset` case of `rewriteHandler`: a dashed
(computed) edge from the rewritten relation's node. -/
def handleComputed (m : AuthorizationModel) (tn rel : String) (g : DotGraph) (r : String) :
    Except BuildErr DotGraph := do
  let name ← getRelationE m tn r
  pure (addEdge g (relationNodeName tn name) (relationNodeName tn rel) "" "dashed")

/-- The `Userset_TupleToUserset` case of `rewriteHandler`: one edge per
directly-related type of the tupleset relation, carrying the
`"(Type#Tupleset)"` headlabel. -/
def handleTTU (m : AuthorizationModel) (tn rel : String) (g : DotGraph) (ts cr : String) :
    Except BuildErr DotGraph := do
  let tsName ← getRelationE m tn ts
  let drts := metadataOf m tn ts
  pure (drts.foldl
    (fun g ref =>
      addEdge g (decorate ref ++ "#" ++ cr) (relationNodeName tn rel)
        ("(" ++ tn ++ "#" ++ tsName ++ ")") "")
    g)

mutual

/-- Modelled from the spec: the recursive walk `typesystem.WalkUsersetRewrite`
(external to this repository) applies `rewriteHandler` to every node of the
rewrite tree and recurses into the children of Union, Intersection and
Difference; the recursion into Intersection and Difference children is
pinned by the repository's own expected outputs (the multigraph and
with_exclusion test cases). The handler cases for Union, Intersection and
Difference themselves add nothing. -/
def walkRewrite (m : AuthorizationModel) (tn rel : String) (g : DotGraph) :
    Userset → Except BuildErr DotGraph
  | .this => handleThis m tn rel g
  | .computedUserset r => handleComputed m tn rel g r
  | .tupleToUserset ts cr => handleTTU m tn rel g ts cr
  | .union cs => walkRewriteList m tn rel g cs
  | .intersection cs => walkRewriteList m tn rel g cs
  | .difference b s => do
      let g1 ← walkRewrite m tn rel g b
      walkRewrite m tn rel g1 s

def walkRewriteList (m : AuthorizationModel) (tn rel : String) (g : DotGraph) :
    List Userset → Except BuildErr DotGraph
  | [] => .ok g
  | c :: rest => do
      let g1 ← walkRewrite m tn rel g c
      walkRewriteList m tn rel g1 rest

end

/-- One relation of a type in `buildGraph`: intern the `"Type#Relation"`
node, then walk its rewrite. -/
def processRelation (m : AuthorizationModel) (td : TypeDefinition) (g : DotGraph)
    (rel : String) : Except BuildErr DotGraph :=
  let g1 := addOrGetNode g (relationNodeName td.type_ rel)
  match td.relations.lookup rel with
  | some us => walkRewrite m td.type_ rel g1 us
  | none => .ok g1

/-- One type definition in `buildGraph`: intern the type node and its
wildcard, then process the relations sorted by name ascending. -/
def processTypeDef (m : AuthorizationModel) (g : DotGraph) (td : TypeDefinition) :
    Except BuildErr DotGraph :=
  let g1 := addOrGetNode (addOrGetNode g td.type_) (td.type_ ++ ":*")
  let keys := List.insertionSort (fun a b => strLe a b = true) (td.relations.map Prod.fst)
  keys.foldlM (processRelation m td) g1

/-- The in-place `sort.SliceStable` of the model's type definitions by
type name ascending (the comparator compares adjacent names for order;
for the distinct names of a valid model this is the ascending sort). -/
def sortedTypeDefs (m : AuthorizationModel) : List TypeDefinition :=
  List.insertionSort (fun a b => strLe a.type_ b.type_ = true) m.typeDefinitions

/-- `buildGraph`: sort the type definitions by name, then fold every type
and every relation into the graph, starting from a fresh graph with its
own edge counter. -/
def buildGraph (m : AuthorizationModel) : Except BuildErr DotGraph :=
  (sortedTypeDefs m).foldlM (processTypeDef m) emptyGraph

/-- The model as left behind by `buildGraph`: the sort of the type
definitions happens in place on the caller's slice. -/
def modelAfterBuild (m : AuthorizationModel) : AuthorizationModel :=
  ⟨sortedTypeDefs m⟩

/-! ### The cycle analyzer -/

/-- `CycleInformation` of writer.go; `definitiveCycles` is computed as a
subtraction of Go ints and is embedded as an integer. -/
structure CycleInformation where
  possibleCycles : Int
  definitiveCycles : Int
  cycles : List (List String)
  deriving DecidableEq, Repr

def linesBetween (g : DotGraph) (a b : String) : List DotLine :=
  g.lines.filter fun l => l.src = a && l.dst = b

/-- The inner line loop of `parseCycleInformation`: iterate the lines
between two consecutive cycle nodes and stop at the first one whose style
is not dashed (that hop then counts toward `possibleCycles`). -/
def hopHasNonDashed (g : DotGraph) (a b : String) : Bool :=
  (linesBetween g a b).any fun l => l.style ≠ "dashed"

def cycleHops (c : List String) : List (String × String) :=
  c.zip c.tail

/-- How many hops of one enumerated cycle carry a line that is not
dashed: `parseCycleInformation` increments `possibleCycles` once per such
hop (the `break` leaves only the line loop, not the loop over the cycle's
nodes). -/
def cyclePossibleHops (g : DotGraph) (c : List String) : Nat :=
  (cycleHops c).countP fun p => hopHasNonDashed g p.1 p.2

/-- The counting part of `parseCycleInformation`, applied to the cycles
returned by the enumerator: `possibleCycles` sums the per-hop counts and
`definitiveCycles` is the number of cycles minus `possibleCycles`. -/
def classifyCycles (g : DotGraph) (cs : List (List String)) : CycleInformation :=
  { possibleCycles := (cs.foldl (fun acc c => acc + cyclePossibleHops g c) 0 : Nat)
    definitiveCycles := (cs.length : Int) - (cs.foldl (fun acc c => acc + cyclePossibleHops g c) 0 : Nat)
    cycles := cs }

def nodeLabel (g : DotGraph) (i : Nat) : String := g.nodes.getD i ""

/-- Node-level successors of node index `i` (the gonum adjacency used by
the cycle enumerator: parallel lines give a single adjacency). -/
def successors (g : DotGraph) (i : Nat) : List Nat :=
  (List.range g.nodes.length).filter fun j =>
    g.lines.any fun l => l.src = nodeLabel g i && l.dst = nodeLabel g j

/-- Depth-first search for the elementary cycles rooted at `s` using only
nodes of index at least `s`, as in Johnson's algorithm; `visited` is the
simple path built so far. A closing step back to `s` from `s` itself (a
self-loop) is not reported. -/
def cyclesFromAux (g : DotGraph) (s : Nat) : Nat → Nat → List Nat → List (List Nat)
  | 0, _, _ => []
  | fuel + 1, cur, visited =>
    (successors g cur).flatMap fun nxt =>
      if nxt = s then
        if 2 ≤ visited.length then [visited ++ [s]] else []
      else if s < nxt ∧ nxt ∉ visited then
        cyclesFromAux g s fuel nxt (visited ++ [nxt])
      else []

/-- Modelled from the spec: the cycle enumeration `topo.DirectedCyclesIn`
(gonum, external to this repository) returning every elementary directed
cycle as its node sequence with the root repeated at the end. One-node
cycles (self-loops) are not returned: the repository's own
union_6_no_cycles test expects zero cycles for a graph whose only cycle
is a self-loop. -/
def directedCyclesIn (g : DotGraph) : List (List String) :=
  ((List.range g.nodes.length).flatMap fun s =>
    cyclesFromAux g s (g.nodes.length + 1) s [s]).map fun c => c.map (nodeLabel g)

/-- `parseCycleInformation`: enumerate the elementary cycles and count. -/
def parseCycleInformation (g : DotGraph) : CycleInformation :=
  classifyCycles g (directedCyclesIn g)

/-- The Writer pipeline without the textual rendering: build, prune, then
analyze the pruned graph. -/
def writerPipeline (m : AuthorizationModel) :
    Except BuildErr (DotGraph × CycleInformation) := do
  let g ← buildGraph m
  let pruned := removeNodesWithNoEdges g
  pure (pruned, parseCycleInformation pruned)


/-! ### Concrete models (the repository's test models and further witnesses) -/

def userTd : TypeDefinition := ⟨"user", [], []⟩

/-- The model of the repository's with_union test case. -/
def withUnionModel : AuthorizationModel :=
  ⟨[userTd,
    ⟨"group", [("member", .this)],
      [("member", [⟨"user", none, ""⟩, ⟨"group", some (.rel "member"), ""⟩])]⟩,
    ⟨"folder", [("viewer", .this)], [("viewer", [⟨"user", none, ""⟩])]⟩,
    ⟨"document",
      [("parent", .this), ("editor", .this),
       ("viewer", .union [.this, .computedUserset "editor", .tupleToUserset "parent" "viewer"])],
      [("parent", [⟨"folder", none, ""⟩]), ("editor", [⟨"user", none, ""⟩]),
       ("viewer", [⟨"user", none, ""⟩, ⟨"user", some .wildcard, ""⟩,
                   ⟨"group", some (.rel "member"), ""⟩])]⟩]⟩

/-- The model of the repository's multigraph test case: an intersection
with a Direct child and two TupleToUserset children. -/
def multigraphModel : AuthorizationModel :=
  ⟨[userTd,
    ⟨"state", [("can_view", .this)], [("can_view", [⟨"user", none, ""⟩])]⟩,
    ⟨"transition",
      [("start", .this), ("end", .this),
       ("can_apply", .intersection [.this, .tupleToUserset "start" "can_view",
                                    .tupleToUserset "end" "can_view"])],
      [("start", [⟨"state", none, ""⟩]), ("end", [⟨"state", none, ""⟩]),
       ("can_apply", [⟨"user", none, ""⟩])]⟩]⟩

/-- The model of the computed_userset_1_definitive_cycle test case. -/
def cu1Model : AuthorizationModel :=
  ⟨[⟨"resource", [("a", .computedUserset "b"), ("b", .computedUserset "a")], []⟩]⟩

/-- The model of the union_6_no_cycles test case: its only cycle is the
self-loop on document#viewer. -/
def union6Model : AuthorizationModel :=
  ⟨[userTd,
    ⟨"document",
      [("editor", .this), ("viewer", .union [.this, .computedUserset "editor"])],
      [("editor", [⟨"user", none, ""⟩]),
       ("viewer", [⟨"document", some (.rel "viewer"), ""⟩])]⟩]⟩

/-- The model of the scenario_1 test case. -/
def scenario1Model : AuthorizationModel :=
  ⟨[userTd,
    ⟨"document",
      [("viewer", .union [.this, .computedUserset "editor"]), ("editor", .this)],
      [("viewer", [⟨"user", none, ""⟩, ⟨"document", some (.rel "viewer"), ""⟩]),
       ("editor", [⟨"user", none, ""⟩, ⟨"document", some (.rel "viewer"), ""⟩])]⟩]⟩

/-- A model with one two-node cycle both of whose edges come from direct
assignments (define x: [user, resource#y]; define y: [user, resource#x]). -/
def twoDirectModel : AuthorizationModel :=
  ⟨[⟨"resource",
      [("x", .this), ("y", .this)],
      [("x", [⟨"user", none, ""⟩, ⟨"resource", some (.rel "y"), ""⟩]),
       ("y", [⟨"user", none, ""⟩, ⟨"resource", some (.rel "x"), ""⟩])]⟩,
    userTd]⟩

/-- Scenario D of the spec: one type with the single self-referential
computed relation define x: x. -/
def selfLoopModel : AuthorizationModel :=
  ⟨[⟨"resource", [("x", .computedUserset "x")], []⟩]⟩

/-- define a: [user]; define c: [user] and a — an Intersection with a
Direct child and a ComputedReference child. -/
def interModel : AuthorizationModel :=
  ⟨[⟨"t", [("a", .this), ("c", .intersection [.this, .computedUserset "a"])],
     [("a", [⟨"user", none, ""⟩]), ("c", [⟨"user", none, ""⟩])]⟩,
    userTd]⟩

/-- A model whose only relation is directly assignable from a type
"ghost" that is defined nowhere. -/
def ghostModel : AuthorizationModel :=
  ⟨[⟨"t", [("a", .this)], [("a", [⟨"ghost", none, ""⟩])]⟩]⟩

/-- define a: [resource#b] or b; define b: a — the direct reference to
resource#b is walked before the computed one. -/
def order1Model : AuthorizationModel :=
  ⟨[⟨"resource",
      [("a", .union [.this, .computedUserset "b"]), ("b", .computedUserset "a")],
      [("a", [⟨"resource", some (.rel "b"), ""⟩]), ("b", [])]⟩]⟩

/-- define a: b or [resource#b]; define b: a — the computed reference to
resource#b is walked before the direct one. -/
def order2Model : AuthorizationModel :=
  ⟨[⟨"resource",
      [("a", .union [.computedUserset "b", .this]), ("b", .computedUserset "a")],
      [("a", [⟨"resource", some (.rel "b"), ""⟩]), ("b", [])]⟩]⟩

/-- The model of the with_conditions test case: every direct reference
carries a condition, so every edge source is a decorated node. -/
def condModel : AuthorizationModel :=
  ⟨[userTd,
    ⟨"document",
      [("admin", .this), ("writer", .this), ("viewer", .this)],
      [("admin", [⟨"user", none, "condition1"⟩]),
       ("writer", [⟨"user", none, "condition2"⟩]),
       ("viewer", [⟨"user", some .wildcard, "condition3"⟩])]⟩]⟩

/-- Two empty types in descending name order. -/
def unsortedModel : AuthorizationModel := ⟨[⟨"b", [], []⟩, ⟨"a", [], []⟩]⟩

set_option maxRecDepth 10000

/-! ### Sanity checks: the embedding reproduces the repository's expected
test outputs (expected DOT edge lists and cycle counts of writer_test). -/

theorem sanity_with_union :
    buildGraph withUnionModel = .ok
      ⟨["document", "document:*", "document#editor", "user", "document#parent", "folder",
        "document#viewer", "user:*", "group#member", "folder#viewer", "folder:*", "group",
        "group:*"],
       [⟨"user", "document#editor", "", "", 1⟩,
        ⟨"folder", "document#parent", "", "", 2⟩,
        ⟨"user", "document#viewer", "", "", 3⟩,
        ⟨"user:*", "document#viewer", "", "", 4⟩,
        ⟨"group#member", "document#viewer", "", "", 5⟩,
        ⟨"document#editor", "document#viewer", "", "dashed", 6⟩,
        ⟨"folder#viewer", "document#viewer", "(document#parent)", "", 7⟩,
        ⟨"user", "folder#viewer", "", "", 8⟩,
        ⟨"user", "group#member", "", "", 9⟩,
        ⟨"group#member", "group#member", "", "", 10⟩],
       10⟩ := by decide

theorem sanity_cu1 :
    (writerPipeline cu1Model).map Prod.snd =
      .ok ⟨0, 1, [["resource#a", "resource#b", "resource#a"]]⟩ := by decide

theorem sanity_union6 :
    (writerPipeline union6Model).map Prod.snd = .ok ⟨0, 0, []⟩ := by decide

theorem sanity_scenario1 :
    (writerPipeline scenario1Model).map Prod.snd =
      .ok ⟨1, 0, [["document#editor", "document#viewer", "document#editor"]]⟩ := by decide


/-! ### Order lemmas for the sort comparator -/

theorem charToNat_inj {a b : Char} (h : a.toNat = b.toNat) : a = b := by
  have ha := Char.ofNat_toNat a
  rw [h, Char.ofNat_toNat] at ha
  exact ha.symm

theorem stringDataInj {a b : String} (h : a.data = b.data) : a = b :=
  congrArg String.mk h

theorem keyLt_irrefl : ∀ x : List Char, keyLt x x = false
  | [] => rfl
  | _ :: as => by simp [keyLt, keyLt_irrefl as]

theorem keyLt_asymm : ∀ {x y : List Char}, keyLt x y = true → keyLt y x = false
  | [], [], h => by simp [keyLt] at h
  | [], _ :: _, _ => by simp [keyLt]
  | _ :: _, [], h => by simp [keyLt] at h
  | a :: as, b :: bs, h => by
      simp only [keyLt, Bool.or_eq_true, Bool.and_eq_true, decide_eq_true_eq] at h
      simp only [keyLt, Bool.or_eq_false_iff, Bool.and_eq_false_iff]
      rcases h with h | ⟨he, hk⟩
      · exact ⟨by simp only [decide_eq_false_iff_not]; omega,
          Or.inl (by simp only [decide_eq_false_iff_not]; omega)⟩
      · exact ⟨by simp only [decide_eq_false_iff_not]; omega,
          Or.inr (keyLt_asymm hk)⟩

theorem keyLt_trans : ∀ {x y z : List Char},
    keyLt x y = true → keyLt y z = true → keyLt x z = true
  | _ :: _, [], _, h, _ => by simp [keyLt] at h
  | [], [], _, h, _ => by simp [keyLt] at h
  | _, _ :: _, [], _, h => by simp [keyLt] at h
  | [], _ :: _, _ :: _, _, _ => by simp [keyLt]
  | a :: as, b :: bs, c :: cs, h1, h2 => by
      simp only [keyLt, Bool.or_eq_true, Bool.and_eq_true, decide_eq_true_eq] at h1 h2 ⊢
      rcases h1 with h1 | ⟨he1, hk1⟩ <;> rcases h2 with h2 | ⟨he2, hk2⟩
      · left; omega
      · left; omega
      · left; omega
      · exact Or.inr ⟨by omega, keyLt_trans hk1 hk2⟩

theorem keyLt_trichotomy : ∀ x y : List Char, keyLt x y = true ∨ x = y ∨ keyLt y x = true
  | [], [] => Or.inr (Or.inl rfl)
  | [], _ :: _ => by simp [keyLt]
  | _ :: _, [] => by simp [keyLt]
  | a :: as, b :: bs => by
      rcases Nat.lt_trichotomy a.toNat b.toNat with h | h | h
      · left
        simp [keyLt, h]
      · rcases keyLt_trichotomy as bs with h2 | h2 | h2
        · left
          simp [keyLt, h, h2]
        · exact Or.inr (Or.inl (by rw [charToNat_inj h, h2]))
        · right; right
          simp [keyLt, h.symm, h2]
      · right; right
        simp [keyLt, h]

theorem strLe_total (a b : String) : strLe a b = true ∨ strLe b a = true := by
  unfold strLe
  rcases keyLt_trichotomy a.data b.data with h | h | h
  · left
    simp [keyLt_asymm h]
  · left
    simp [← h, keyLt_irrefl]
  · right
    simp [keyLt_asymm h]

theorem strLe_trans {a b c : String} (h1 : strLe a b = true) (h2 : strLe b c = true) :
    strLe a c = true := by
  unfold strLe at h1 h2 ⊢
  simp only [Bool.not_eq_true'] at h1 h2 ⊢
  by_contra hc
  rw [Bool.not_eq_false] at hc
  rcases keyLt_trichotomy b.data c.data with h | h | h
  · rw [keyLt_trans h hc] at h1
    simp at h1
  · rw [h, hc] at h1
    simp at h1
  · rw [h] at h2
    simp at h2

theorem strLe_antisymm {a b : String} (h1 : strLe a b = true) (h2 : strLe b a = true) :
    a = b := by
  unfold strLe at h1 h2
  simp only [Bool.not_eq_true'] at h1 h2
  rcases keyLt_trichotomy a.data b.data with h | h | h
  · rw [h] at h2
    simp at h2
  · exact stringDataInj h
  · rw [h] at h1
    simp at h1

theorem strLe_refl (a : String) : strLe a a = true := by
  simp [strLe, keyLt_irrefl]

instance : IsTotal String fun a b => strLe a b = true := ⟨strLe_total⟩

instance : IsTrans String fun a b => strLe a b = true := ⟨fun _ _ _ => strLe_trans⟩

instance : IsAntisymm String fun a b => strLe a b = true := ⟨fun _ _ => strLe_antisymm⟩

instance : IsTotal TypeDefinition fun a b => strLe a.type_ b.type_ = true :=
  ⟨fun a b => strLe_total a.type_ b.type_⟩

instance : IsTrans TypeDefinition fun a b => strLe a.type_ b.type_ = true :=
  ⟨fun _ _ _ => strLe_trans⟩


/-! ### Helper lemmas on the graph operations -/

theorem addOrGetNode_lines (g : DotGraph) (lbl : String) :
    (addOrGetNode g lbl).lines = g.lines := by
  unfold addOrGetNode
  split <;> rfl

theorem addOrGetNode_counter (g : DotGraph) (lbl : String) :
    (addOrGetNode g lbl).edgeCounter = g.edgeCounter := by
  unfold addOrGetNode
  split <;> rfl

theorem hasLine_addOrGetNode (g : DotGraph) (lbl src dst hl : String) :
    hasLine (addOrGetNode g lbl) src dst hl = hasLine g src dst hl := by
  unfold hasLine
  rw [addOrGetNode_lines]

theorem addEdge_of_hasLine {g : DotGraph} {src dst hl : String} (st : String)
    (h : hasLine g src dst hl = true) :
    (addEdge g src dst hl st).lines = g.lines
    ∧ (addEdge g src dst hl st).edgeCounter = g.edgeCounter := by
  unfold addEdge
  have h1 : hasLine (addOrGetNode (addOrGetNode g src) dst) src dst hl = true := by
    rw [hasLine_addOrGetNode, hasLine_addOrGetNode]
    exact h
  simp only [h1, if_true, addOrGetNode_lines, addOrGetNode_counter, and_self]

theorem foldlAddSum (g : DotGraph) :
    ∀ (cs : List (List String)) (n : Nat),
      cs.foldl (fun acc c => acc + cyclePossibleHops g c) n
        = n + (cs.map (cyclePossibleHops g)).sum
  | [], n => by simp
  | c :: cs, n => by
      simp only [List.foldl_cons, List.map_cons, List.sum_cons]
      rw [foldlAddSum g cs]
      omega

theorem sumMapEqCountP {α : Type} (f : α → Nat) :
    ∀ l : List α, (∀ a ∈ l, f a ≤ 1) →
      (l.map f).sum = l.countP fun a => decide (0 < f a)
  | [], _ => rfl
  | a :: l, h => by
      have ha : f a ≤ 1 := h a (List.mem_cons_self a l)
      have ih := sumMapEqCountP f l fun x hx => h x (List.mem_cons_of_mem a hx)
      simp only [List.map_cons, List.sum_cons, List.countP_cons, ih]
      by_cases h0 : 0 < f a
      · simp [h0]
        omega
      · simp [h0]
        omega

theorem countPosAddCountZero {α : Type} (f : α → Nat) (l : List α) :
    l.length = l.countP (fun a => decide (0 < f a)) + l.countP (fun a => decide (f a = 0)) := by
  induction l with
  | nil => rfl
  | cons a l ih =>
      simp only [List.length_cons, List.countP_cons, ih]
      by_cases h0 : 0 < f a
      · have h1 : ¬(f a = 0) := by omega
        simp [h0, h1]
        omega
      · have h1 : f a = 0 := by omega
        simp [h0, h1]
        omega

/-! ### Claim C1 -/

/-- C1: for every graph, `definitiveCycles + possibleCycles` equals the number
of enumerated cycles and `possibleCycles` is nonnegative, with
`possibleCycles` the sum, over the enumerated cycles, of the number of hops
carrying a line that is not dashed. The remainder of the original claim — that
`definitiveCycles` is nonnegative and that the two counts partition the
enumerated cycles, each cycle counted exactly once — is refuted by
`c1_counterexample`. -/
theorem c1_cycle_counts (g : DotGraph) :
    (parseCycleInformation g).definitiveCycles + (parseCycleInformation g).possibleCycles
      = ((parseCycleInformation g).cycles.length : Int)
    ∧ 0 ≤ (parseCycleInformation g).possibleCycles
    ∧ (parseCycleInformation g).possibleCycles
      = (((parseCycleInformation g).cycles.map (cyclePossibleHops g)).sum : Int) := by
  unfold parseCycleInformation classifyCycles
  refine ⟨Int.sub_add_cancel _ _, Int.natCast_nonneg _, ?_⟩
  rw [foldlAddSum g _ 0]
  simp

/-- C1 fails as stated: on the model with `define x: [user, resource#y]` and
`define y: [user, resource#x]` the analyzer reports `possibleCycles = 2` and
`definitiveCycles = -1` for a single enumerated cycle, so the counts are not
a partition and `definitiveCycles` is negative. -/
theorem c1_counterexample :
    ((writerPipeline twoDirectModel).map fun p =>
        (p.2.possibleCycles, p.2.definitiveCycles, p.2.cycles.length))
      = .ok (2, -1, 1)
    ∧ ¬(0 ≤ (-1 : Int)) := by
  exact ⟨by decide, by decide⟩

/-! ### Claim C2 -/

/-- C2: the per-cycle classification of the original claim holds exactly when
every enumerated cycle has at most one hop carrying a non-computed line; then
`possibleCycles` is the number of cycles with at least one non-computed hop
and `definitiveCycles` the number of cycles all of whose hops are computed.
Without that bound the counts over-count, see `c2_counterexample`. -/
theorem c2_classification (g : DotGraph)
    (h : ∀ c ∈ directedCyclesIn g, cyclePossibleHops g c ≤ 1) :
    (parseCycleInformation g).possibleCycles
      = ((directedCyclesIn g).countP fun c => decide (0 < cyclePossibleHops g c))
    ∧ (parseCycleInformation g).definitiveCycles
      = ((directedCyclesIn g).countP fun c => decide (cyclePossibleHops g c = 0)) := by
  unfold parseCycleInformation classifyCycles
  have hs := sumMapEqCountP (cyclePossibleHops g) (directedCyclesIn g) h
  have hz := countPosAddCountZero (cyclePossibleHops g) (directedCyclesIn g)
  constructor
  · rw [foldlAddSum g _ 0]
    simp [hs]
  · rw [foldlAddSum g _ 0]
    simp only [Nat.zero_add, hs]
    omega

/-- C2 witness: the build of `define a: [resource#b] or b; define b: a` yields
one cycle with exactly one non-computed hop, and the counts agree with the
per-cycle classification. -/
theorem c2_classification_witness :
    (∀ c ∈ directedCyclesIn ⟨["resource#a", "resource#b"],
        [⟨"resource#b", "resource#a", "", "", 1⟩, ⟨"resource#a", "resource#b", "", "dashed", 2⟩],
        2⟩, cyclePossibleHops ⟨["resource#a", "resource#b"],
        [⟨"resource#b", "resource#a", "", "", 1⟩, ⟨"resource#a", "resource#b", "", "dashed", 2⟩],
        2⟩ c ≤ 1)
    ∧ (parseCycleInformation ⟨["resource#a", "resource#b"],
        [⟨"resource#b", "resource#a", "", "", 1⟩, ⟨"resource#a", "resource#b", "", "dashed", 2⟩],
        2⟩).possibleCycles = 1 := by
  refine ⟨by decide, ?_⟩
  rw [(c2_classification _ (by decide)).1]
  decide

/-- C2 fails as stated: in the two-direct-edge cycle of `twoDirectModel`,
`possibleCycles` is 2 while only 1 enumerated cycle is in the possible class
(its two hops are both counted). -/
theorem c2_counterexample :
    ((writerPipeline twoDirectModel).map fun p =>
        (p.2.possibleCycles,
         (p.2.cycles.countP fun c => decide (0 < cyclePossibleHops p.1 c) : Nat)))
      = .ok (2, 1)
    ∧ (2 : Int) ≠ ((1 : Nat) : Int) := by
  exact ⟨by decide, by decide⟩

/-! ### Claim C3 -/

/-- C3: contrary to the original claim, Intersection and Difference are walked
exactly like Union — the handler recurses into every child, so Direct children
contribute their (non-computed) directly-related edges and Tupleset children
their context-labelled edges, while ComputedReference children contribute
dashed computed edges. The multigraph model's intersection (a Direct child and
two Tupleset children) produces edges 2, 3 and 4 of its expected output. -/
theorem c3_intersection_difference_transparent :
    (∀ (m : AuthorizationModel) (tn rel : String) (g : DotGraph) (cs : List Userset),
        walkRewrite m tn rel g (.intersection cs) = walkRewrite m tn rel g (.union cs))
    ∧ (∀ (m : AuthorizationModel) (tn rel : String) (g : DotGraph) (b s : Userset),
        walkRewrite m tn rel g (.difference b s) = walkRewrite m tn rel g (.union [b, s]))
    ∧ ((buildGraph multigraphModel).map fun g => g.lines) = .ok
        [⟨"user", "state#can_view", "", "", 1⟩,
         ⟨"user", "transition#can_apply", "", "", 2⟩,
         ⟨"state#can_view", "transition#can_apply", "(transition#start)", "", 3⟩,
         ⟨"state#can_view", "transition#can_apply", "(transition#end)", "", 4⟩,
         ⟨"state", "transition#end", "", "", 5⟩,
         ⟨"state", "transition#start", "", "", 6⟩] := by
  refine ⟨fun m tn rel g cs => rfl, fun m tn rel g b s => ?_, by decide⟩
  simp only [walkRewrite, walkRewriteList]
  cases walkRewrite m tn rel g b with
  | error e => rfl
  | ok g1 =>
      show walkRewrite m tn rel g1 s = walkRewrite m tn rel g1 s >>= fun g2 => .ok g2
      cases walkRewrite m tn rel g1 s with
      | error e => rfl
      | ok g2 => rfl

/-- C3 fails as stated: in `interModel`, relation c is the intersection of a
Direct child and the ComputedReference child a, and the build emits a
non-computed edge (user, t#c) for the Direct child — the claim says Direct
children of an Intersection contribute no edge. -/
theorem c3_counterexample :
    ((findTypeDef interModel "t").map fun td => td.relations.lookup "c")
      = some (some (.intersection [.this, .computedUserset "a"]))
    ∧ ((buildGraph interModel).map fun g => g.lines) = .ok
        [⟨"user", "t#a", "", "", 1⟩,
         ⟨"user", "t#c", "", "", 2⟩,
         ⟨"t#a", "t#c", "", "dashed", 3⟩] := by
  exact ⟨by decide, by decide⟩

/-! ### Claim C4 -/

/-- C4: contrary to the original claim, the model `define x: x` yields a graph
whose single line is the dashed self-loop on resource#x, yet the report has 0
definitive and 0 possible cycles with an empty cycle list: the cycle
enumeration omits one-node cycles (self-loops), as the repository's own
union_6_no_cycles test expects. -/
theorem c4_self_loop_reported_empty :
    writerPipeline selfLoopModel = .ok
      (⟨["resource#x"], [⟨"resource#x", "resource#x", "", "dashed", 1⟩], 1⟩,
       ⟨0, 0, []⟩) := by
  decide

/-- C4 fails as stated: the analyzer reports 0 definitive cycles, not 1, on
the self-referential computed relation. -/
theorem c4_counterexample :
    ((writerPipeline selfLoopModel).map fun p => (p.2.definitiveCycles, p.2.possibleCycles))
      = .ok (0, 0)
    ∧ (0 : Int) ≠ 1 := by
  exact ⟨by decide, by decide⟩

/-! ### Claim C7 -/

/-- C7: edge identity ignores the computed flag: when a line with the same
(from, to, headlabel) exists, a second AddEdge call leaves the lines and the
counter unchanged, so the surviving edge keeps the style of the first call;
and the classification of a cycle through such an edge depends on
construction order: the same cycle is 1 possible / 0 definitive when the
direct reference is walked first (order1Model) and 0 possible / 1 definitive
when the computed reference is walked first (order2Model). -/
theorem c7_dedup_ignores_style :
    (∀ (g : DotGraph) (src dst hl s2 : String), hasLine g src dst hl = true →
        (addEdge g src dst hl s2).lines = g.lines
        ∧ (addEdge g src dst hl s2).edgeCounter = g.edgeCounter)
    ∧ ((buildGraph order1Model).map fun g => g.lines) = .ok
        [⟨"resource#b", "resource#a", "", "", 1⟩, ⟨"resource#a", "resource#b", "", "dashed", 2⟩]
    ∧ ((buildGraph order2Model).map fun g => g.lines) = .ok
        [⟨"resource#b", "resource#a", "", "dashed", 1⟩, ⟨"resource#a", "resource#b", "", "dashed", 2⟩]
    ∧ ((writerPipeline order1Model).map fun p => (p.2.possibleCycles, p.2.definitiveCycles))
        = .ok (1, 0)
    ∧ ((writerPipeline order2Model).map fun p => (p.2.possibleCycles, p.2.definitiveCycles))
        = .ok (0, 1) := by
  exact ⟨fun g src dst hl s2 h => addEdge_of_hasLine s2 h, by decide, by decide, by decide,
    by decide⟩

/-- C7 witness: a concrete duplicate AddEdge call with a different style is a
no-op on the lines. -/
theorem c7_dedup_ignores_style_witness :
    hasLine ⟨["a", "b"], [⟨"a", "b", "", "", 1⟩], 1⟩ "a" "b" "" = true
    ∧ (addEdge ⟨["a", "b"], [⟨"a", "b", "", "", 1⟩], 1⟩ "a" "b" "" "dashed").lines
        = [⟨"a", "b", "", "", 1⟩] := by
  refine ⟨by decide, ?_⟩
  rw [(c7_dedup_ignores_style.1 ⟨["a", "b"], [⟨"a", "b", "", "", 1⟩], 1⟩ "a" "b" "" "dashed"
    (by decide)).1]

/-! ### Claim C10 -/

/-- C10: contrary to the original claim, `buildGraph` sorts the model's
TypeDefinitions in place: after the call the collection is a permutation of
the original sorted ascending by type name, and it equals the original only
when the original was already sorted. -/
theorem c10_model_sorted_in_place (m : AuthorizationModel) :
    (modelAfterBuild m).typeDefinitions.Perm m.typeDefinitions
    ∧ List.Sorted (fun a b => strLe a.type_ b.type_ = true) (modelAfterBuild m).typeDefinitions
    ∧ (List.Sorted (fun a b => strLe a.type_ b.type_ = true) m.typeDefinitions →
        modelAfterBuild m = m) := by
  refine ⟨List.perm_insertionSort _ _, List.sorted_insertionSort _ _, fun h => ?_⟩
  unfold modelAfterBuild sortedTypeDefs
  rw [List.Sorted.insertionSort_eq h]

/-- C10 witness: an already-sorted model is left unchanged. -/
theorem c10_model_sorted_in_place_witness :
    List.Sorted (fun a b => strLe a.type_ b.type_ = true)
      (⟨[⟨"a", [], []⟩, ⟨"b", [], []⟩]⟩ : AuthorizationModel).typeDefinitions
    ∧ modelAfterBuild ⟨[⟨"a", [], []⟩, ⟨"b", [], []⟩]⟩ = ⟨[⟨"a", [], []⟩, ⟨"b", [], []⟩]⟩ := by
  have h : List.Sorted (fun a b => strLe a.type_ b.type_ = true)
      (⟨[⟨"a", [], []⟩, ⟨"b", [], []⟩]⟩ : AuthorizationModel).typeDefinitions := by
    simp only [List.sorted_cons]
    refine ⟨?_, ?_⟩
    · intro b hb
      simp only [List.mem_singleton] at hb
      rw [hb]
      decide
    · simp
  exact ⟨h, (c10_model_sorted_in_place ⟨[⟨"a", [], []⟩, ⟨"b", [], []⟩]⟩).2.2 h⟩

/-- C10 fails as stated: a model whose type definitions appear in descending
name order is reordered by the build. -/
theorem c10_counterexample :
    modelAfterBuild unsortedModel ≠ unsortedModel
    ∧ (modelAfterBuild unsortedModel).typeDefinitions.map TypeDefinition.type_ = ["a", "b"]
    ∧ unsortedModel.typeDefinitions.map TypeDefinition.type_ = ["b", "a"] := by
  exact ⟨by decide, by decide, by decide⟩


/-! ### Well-formedness of built graphs (claim C5) -/

/-- The graph invariants maintained by the builder: the edge counter equals
the number of lines, the sequence numbers are exactly 1..E in creation
order, the (from, to, headlabel) triples are pairwise distinct, and every
line's endpoints are interned nodes. -/
def WFGraph (g : DotGraph) : Prop :=
  g.edgeCounter = g.lines.length
  ∧ g.lines.map DotLine.seq = List.range' 1 g.lines.length
  ∧ (g.lines.map fun l => (l.src, l.dst, l.headlabel)).Nodup
  ∧ ∀ l ∈ g.lines, l.src ∈ g.nodes ∧ l.dst ∈ g.nodes

theorem wf_empty : WFGraph emptyGraph := by
  refine ⟨rfl, rfl, List.nodup_nil, ?_⟩
  intro l hl
  simp [emptyGraph] at hl

theorem mem_addOrGetNode_of_mem {g : DotGraph} {x : String} (lbl : String)
    (h : x ∈ g.nodes) : x ∈ (addOrGetNode g lbl).nodes := by
  unfold addOrGetNode
  split
  · exact h
  · exact List.mem_append_left _ h

theorem self_mem_addOrGetNode (g : DotGraph) (lbl : String) :
    lbl ∈ (addOrGetNode g lbl).nodes := by
  unfold addOrGetNode
  split
  · assumption
  · exact List.mem_append_right _ (List.mem_singleton_self lbl)

theorem wf_addOrGetNode {g : DotGraph} (lbl : String) (h : WFGraph g) :
    WFGraph (addOrGetNode g lbl) := by
  obtain ⟨h1, h2, h3, h4⟩ := h
  refine ⟨?_, ?_, ?_, ?_⟩ <;> rw [addOrGetNode_lines] <;> try rw [addOrGetNode_counter]
  · exact h1
  · exact h2
  · exact h3
  · intro l hl
    exact ⟨mem_addOrGetNode_of_mem lbl (h4 l hl).1, mem_addOrGetNode_of_mem lbl (h4 l hl).2⟩

theorem hasLine_eq_false_iff {g : DotGraph} {src dst hl : String} :
    hasLine g src dst hl = false ↔
      ∀ l ∈ g.lines, ¬(l.src = src ∧ l.dst = dst ∧ l.headlabel = hl) := by
  unfold hasLine
  simp [List.any_eq_true, and_assoc]

theorem wf_addEdge {g : DotGraph} (src dst hl st : String) (h : WFGraph g) :
    WFGraph (addEdge g src dst hl st) := by
  unfold addEdge
  have hg1 : WFGraph (addOrGetNode (addOrGetNode g src) dst) :=
    wf_addOrGetNode dst (wf_addOrGetNode src h)
  set g1 := addOrGetNode (addOrGetNode g src) dst with hg1def
  by_cases hdup : hasLine g1 src dst hl
  · simp only [hdup, if_true]
    exact hg1
  · simp only [Bool.not_eq_true] at hdup
    simp only [hdup, Bool.false_eq_true, if_false]
    obtain ⟨h1, h2, h3, h4⟩ := hg1
    refine ⟨?_, ?_, ?_, ?_⟩
    · simp [h1]
    · simp only [List.map_append, List.map_cons, List.map_nil, List.length_append,
        List.length_cons, List.length_nil]
      rw [h2, h1]
      have := @List.range'_concat 1 1 g1.lines.length
      rw [this]
      simp [Nat.add_comm]
    · simp only [List.map_append, List.map_cons, List.map_nil]
      rw [List.nodup_append]
      refine ⟨h3, List.nodup_singleton _, ?_⟩
      intro x hx hx2
      simp only [List.mem_singleton] at hx2
      subst hx2
      rw [hasLine_eq_false_iff] at hdup
      simp only [List.mem_map] at hx
      obtain ⟨l, hl, hleq⟩ := hx
      exact hdup l hl ⟨congrArg Prod.fst hleq, by
        have := congrArg Prod.snd hleq
        exact ⟨congrArg Prod.fst this, congrArg Prod.snd this⟩⟩
    · intro l hlmem
      simp only [List.mem_append, List.mem_singleton] at hlmem
      rcases hlmem with hlmem | hlmem
      · exact h4 l hlmem
      · subst hlmem
        refine ⟨?_, ?_⟩
        · exact mem_addOrGetNode_of_mem dst (self_mem_addOrGetNode _ src)
        · exact self_mem_addOrGetNode _ dst

theorem wf_thisCaseStep {g : DotGraph} (rn : String) (ref : RelationReference)
    (h : WFGraph g) : WFGraph (thisCaseStep rn g ref) := by
  unfold thisCaseStep
  cases href : ref.relOrWildcard with
  | none => exact wf_addEdge _ _ _ _ h
  | some rw =>
      cases rw with
      | rel rr =>
          by_cases hrr : rr = ""
          · simp only [hrr, if_true]
            exact h
          · simp only [hrr, if_false]
            exact wf_addEdge _ _ _ _ h
      | wildcard => exact wf_addEdge _ _ _ _ h

theorem wf_foldl {α : Type} (f : DotGraph → α → DotGraph)
    (hf : ∀ g a, WFGraph g → WFGraph (f g a)) :
    ∀ (l : List α) (g : DotGraph), WFGraph g → WFGraph (l.foldl f g)
  | [], g, hg => hg
  | a :: l, g, hg => by
      rw [List.foldl_cons]
      exact wf_foldl f hf l (f g a) (hf g a hg)

theorem wf_handleThis {m : AuthorizationModel} {tn rel : String} {g g2 : DotGraph}
    (hg : WFGraph g) (h : handleThis m tn rel g = .ok g2) : WFGraph g2 := by
  unfold handleThis at h
  cases hr : getDirectlyRelated m tn rel with
  | error e => rw [hr] at h; exact absurd h (by simp [Bind.bind, Except.bind])
  | ok refs =>
      rw [hr] at h
      simp only [Bind.bind, Except.bind, pure, Except.pure, Except.ok.injEq] at h
      subst h
      exact wf_foldl _ (fun g a hg => wf_thisCaseStep _ a hg) refs g hg

theorem wf_handleComputed {m : AuthorizationModel} {tn rel r : String} {g g2 : DotGraph}
    (hg : WFGraph g) (h : handleComputed m tn rel g r = .ok g2) : WFGraph g2 := by
  unfold handleComputed at h
  cases hr : getRelationE m tn r with
  | error e => rw [hr] at h; exact absurd h (by simp [Bind.bind, Except.bind])
  | ok name =>
      rw [hr] at h
      simp only [Bind.bind, Except.bind, pure, Except.pure, Except.ok.injEq] at h
      subst h
      exact wf_addEdge _ _ _ _ hg

theorem wf_handleTTU {m : AuthorizationModel} {tn rel ts cr : String} {g g2 : DotGraph}
    (hg : WFGraph g) (h : handleTTU m tn rel g ts cr = .ok g2) : WFGraph g2 := by
  unfold handleTTU at h
  cases hr : getRelationE m tn ts with
  | error e => rw [hr] at h; exact absurd h (by simp [Bind.bind, Except.bind])
  | ok name =>
      rw [hr] at h
      simp only [Bind.bind, Except.bind, pure, Except.pure, Except.ok.injEq] at h
      subst h
      exact wf_foldl _ (fun g a hg => wf_addEdge _ _ _ _ hg) _ g hg

mutual

theorem wf_walkRewrite (m : AuthorizationModel) (tn rel : String) :
    ∀ (us : Userset) (g g2 : DotGraph), WFGraph g →
      walkRewrite m tn rel g us = .ok g2 → WFGraph g2
  | .this, g, g2, hg, h => wf_handleThis hg h
  | .computedUserset r, g, g2, hg, h => wf_handleComputed hg h
  | .tupleToUserset ts cr, g, g2, hg, h => wf_handleTTU hg h
  | .union cs, g, g2, hg, h => wf_walkRewriteList m tn rel cs g g2 hg h
  | .intersection cs, g, g2, hg, h => wf_walkRewriteList m tn rel cs g g2 hg h
  | .difference b s, g, g2, hg, h => by
      simp only [walkRewrite] at h
      cases hb : walkRewrite m tn rel g b with
      | error e => rw [hb] at h; exact absurd h (by simp [Bind.bind, Except.bind])
      | ok g1 =>
          rw [hb] at h
          exact wf_walkRewrite m tn rel s g1 g2 (wf_walkRewrite m tn rel b g g1 hg hb) h

theorem wf_walkRewriteList (m : AuthorizationModel) (tn rel : String) :
    ∀ (cs : List Userset) (g g2 : DotGraph), WFGraph g →
      walkRewriteList m tn rel g cs = .ok g2 → WFGraph g2
  | [], g, g2, hg, h => by
      simp only [walkRewriteList, Except.ok.injEq] at h
      exact h ▸ hg
  | c :: cs, g, g2, hg, h => by
      simp only [walkRewriteList] at h
      cases hc : walkRewrite m tn rel g c with
      | error e => rw [hc] at h; exact absurd h (by simp [Bind.bind, Except.bind])
      | ok g1 =>
          rw [hc] at h
          exact wf_walkRewriteList m tn rel cs g1 g2 (wf_walkRewrite m tn rel c g g1 hg hc) h

end

theorem wf_processRelation {m : AuthorizationModel} {td : TypeDefinition} {g g2 : DotGraph}
    {rel : String} (hg : WFGraph g) (h : processRelation m td g rel = .ok g2) : WFGraph g2 := by
  unfold processRelation at h
  have hga : WFGraph (addOrGetNode g (relationNodeName td.type_ rel)) := wf_addOrGetNode _ hg
  cases hl : td.relations.lookup rel with
  | none =>
      rw [hl] at h
      simp only [Except.ok.injEq] at h
      exact h ▸ hga
  | some us =>
      rw [hl] at h
      exact wf_walkRewrite m td.type_ rel us _ g2 hga h

theorem wf_foldlM {α : Type} (f : DotGraph → α → Except BuildErr DotGraph)
    (hf : ∀ g a g2, WFGraph g → f g a = .ok g2 → WFGraph g2) :
    ∀ (l : List α) (g g2 : DotGraph), WFGraph g → l.foldlM f g = .ok g2 → WFGraph g2
  | [], g, g2, hg, h => by
      simp only [List.foldlM_nil, pure, Except.pure, Except.ok.injEq] at h
      exact h ▸ hg
  | a :: l, g, g2, hg, h => by
      rw [List.foldlM_cons] at h
      cases ha : f g a with
      | error e => rw [ha] at h; exact absurd h (by simp [Bind.bind, Except.bind])
      | ok g1 =>
          rw [ha] at h
          exact wf_foldlM f hf l g1 g2 (hf g a g1 hg ha) h

theorem wf_processTypeDef {m : AuthorizationModel} {g g2 : DotGraph} {td : TypeDefinition}
    (hg : WFGraph g) (h : processTypeDef m g td = .ok g2) : WFGraph g2 := by
  unfold processTypeDef at h
  exact wf_foldlM _ (fun g a g2 hg ha => wf_processRelation hg ha) _ _ g2
    (wf_addOrGetNode _ (wf_addOrGetNode _ hg)) h

theorem wf_buildGraph {m : AuthorizationModel} {g : DotGraph}
    (h : buildGraph m = .ok g) : WFGraph g := by
  unfold buildGraph at h
  exact wf_foldlM _ (fun g a g2 hg ha => wf_processTypeDef hg ha) _ _ g wf_empty h

/-! ### Claim C5 -/

/-- C5: for every successful build, the edge sequence numbers (the `label`
attributes in creation order) are exactly the contiguous range 1..E where E
is the number of lines, the per-graph counter equals E, the
(from, to, headlabel) triples are pairwise distinct (so E is the number of
distinct triples), and an AddEdge call whose triple already exists creates
no new line and consumes no sequence number. -/
theorem c5_sequence_numbers (m : AuthorizationModel) (g : DotGraph)
    (hb : buildGraph m = .ok g) :
    g.lines.map DotLine.seq = List.range' 1 g.lines.length
    ∧ g.edgeCounter = g.lines.length
    ∧ (g.lines.map fun l => (l.src, l.dst, l.headlabel)).Nodup
    ∧ ∀ (g0 : DotGraph) (src dst hl st : String), hasLine g0 src dst hl = true →
        (addEdge g0 src dst hl st).lines = g0.lines
        ∧ (addEdge g0 src dst hl st).edgeCounter = g0.edgeCounter := by
  obtain ⟨h1, h2, h3, _⟩ := wf_buildGraph hb
  exact ⟨h2, h1, h3, fun g0 src dst hl st h => addEdge_of_hasLine st h⟩

/-- C5 witness: the build of the a-defined-as-b model carries sequence
numbers [1, 2]. -/
theorem c5_sequence_numbers_witness :
    buildGraph cu1Model = .ok
      (⟨["resource", "resource:*", "resource#a", "resource#b"],
        [⟨"resource#b", "resource#a", "", "dashed", 1⟩,
         ⟨"resource#a", "resource#b", "", "dashed", 2⟩], 2⟩ : DotGraph)
    ∧ ((⟨["resource", "resource:*", "resource#a", "resource#b"],
        [⟨"resource#b", "resource#a", "", "dashed", 1⟩,
         ⟨"resource#a", "resource#b", "", "dashed", 2⟩], 2⟩ : DotGraph).lines.map DotLine.seq
      = List.range' 1 (⟨["resource", "resource:*", "resource#a", "resource#b"],
        [⟨"resource#b", "resource#a", "", "dashed", 1⟩,
         ⟨"resource#a", "resource#b", "", "dashed", 2⟩], 2⟩ : DotGraph).lines.length) := by
  refine ⟨by decide, ?_⟩
  exact (c5_sequence_numbers cu1Model _ (by decide)).1


/-! ### Reference resolution (claim C9) -/

theorem isOk_error {ε α : Type} (e : ε) : (Except.error e : Except ε α).isOk = false := rfl

theorem isOk_ok {ε α : Type} (a : α) : (Except.ok a : Except ε α).isOk = true := rfl

theorem error_bind {ε α β : Type} (e : ε) (f : α → Except ε β) :
    ((Except.error e : Except ε α) >>= f) = .error e := rfl

theorem ok_bind {ε α β : Type} (a : α) (f : α → Except ε β) :
    ((Except.ok a : Except ε α) >>= f) = f a := rfl

theorem pure_ok {ε α : Type} (a : α) : (pure a : Except ε α) = .ok a := rfl

/-- Can relation `r` on type `t` be resolved (the type is defined and holds
the relation)? This is exactly the success condition of the modelled
`typesystem.GetRelation`. -/
def resolvable (m : AuthorizationModel) (t r : String) : Bool :=
  match findTypeDef m t with
  | none => false
  | some td => (td.relations.lookup r).isSome

mutual

/-- Do all the relation lookups performed while walking this rewrite
succeed? The walk of relation `rel` on type `t` looks up `(t, rel)` for a
Direct node, `(t, r)` for ComputedReference(r) and `(t, ts)` for
TuplesetReference(ts, _). -/
def usResolves (m : AuthorizationModel) (t rel : String) : Userset → Bool
  | .this => resolvable m t rel
  | .computedUserset r => resolvable m t r
  | .tupleToUserset ts _ => resolvable m t ts
  | .union cs => usResolvesList m t rel cs
  | .intersection cs => usResolvesList m t rel cs
  | .difference b s => usResolves m t rel b && usResolves m t rel s

def usResolvesList (m : AuthorizationModel) (t rel : String) : List Userset → Bool
  | [] => true
  | c :: cs => usResolves m t rel c && usResolvesList m t rel cs

end

/-- Does every lookup performed over the whole model resolve? -/
def resolvesAll (m : AuthorizationModel) : Bool :=
  m.typeDefinitions.all fun td =>
    (td.relations.map Prod.fst).all fun r =>
      match td.relations.lookup r with
      | some us => usResolves m td.type_ r us
      | none => true

theorem permAll {α : Type} {l1 l2 : List α} (h : l1.Perm l2) (p : α → Bool) :
    l1.all p = l2.all p := by
  cases h2 : l2.all p
  · rw [List.all_eq_false] at h2 ⊢
    obtain ⟨x, hx, hpx⟩ := h2
    exact ⟨x, h.mem_iff.mpr hx, hpx⟩
  · rw [List.all_eq_true] at h2 ⊢
    intro x hx
    exact h2 x (h.mem_iff.mp hx)

theorem getRelationE_isOk (m : AuthorizationModel) (t r : String) :
    (getRelationE m t r).isOk = resolvable m t r := by
  unfold getRelationE resolvable
  cases findTypeDef m t with
  | none => rfl
  | some td =>
      cases hs : (td.relations.lookup r).isSome
      · simp only [hs, Bool.false_eq_true, if_false, isOk_error]
      · simp only [hs, if_true, isOk_ok]

theorem getRelationE_error {m : AuthorizationModel} {t r : String} {e : BuildErr}
    (h : getRelationE m t r = .error e) :
    e = .modelLookupError t r ∧ resolvable m t r = false := by
  refine ⟨?_, ?_⟩
  · unfold getRelationE at h
    cases hf : findTypeDef m t with
    | none =>
        rw [hf] at h
        exact (Except.error.inj h).symm
    | some td =>
        rw [hf] at h
        cases hs : (td.relations.lookup r).isSome
        · simp only [hs, Bool.false_eq_true, if_false] at h
          exact (Except.error.inj h).symm
        · simp only [hs, if_true] at h
          exact absurd h (by simp)
  · have := getRelationE_isOk m t r
    rw [h] at this
    rw [← this, isOk_error]

theorem handleThis_isOk (m : AuthorizationModel) (tn rel : String) (g : DotGraph) :
    (handleThis m tn rel g).isOk = resolvable m tn rel := by
  unfold handleThis getDirectlyRelated
  rw [← getRelationE_isOk m tn rel]
  cases getRelationE m tn rel with
  | error e => rw [error_bind, error_bind, isOk_error, isOk_error]
  | ok name => rw [ok_bind, pure_ok, ok_bind, pure_ok, isOk_ok, isOk_ok]

theorem handleThis_error {m : AuthorizationModel} {tn rel : String} {g : DotGraph}
    {e : BuildErr} (h : handleThis m tn rel g = .error e) :
    ∃ t r, e = .modelLookupError t r ∧ resolvable m t r = false := by
  unfold handleThis getDirectlyRelated at h
  cases hr : getRelationE m tn rel with
  | error e2 =>
      rw [hr, error_bind, error_bind] at h
      obtain ⟨he, hres⟩ := getRelationE_error hr
      exact ⟨tn, rel, by rw [← Except.error.inj h, he], hres⟩
  | ok name =>
      rw [hr, ok_bind, pure_ok, ok_bind, pure_ok] at h
      exact absurd h (by simp)

theorem handleComputed_isOk (m : AuthorizationModel) (tn rel : String) (g : DotGraph)
    (r : String) : (handleComputed m tn rel g r).isOk = resolvable m tn r := by
  unfold handleComputed
  rw [← getRelationE_isOk m tn r]
  cases getRelationE m tn r with
  | error e => rw [error_bind, isOk_error, isOk_error]
  | ok name => rw [ok_bind, pure_ok, isOk_ok, isOk_ok]

theorem handleComputed_error {m : AuthorizationModel} {tn rel r : String} {g : DotGraph}
    {e : BuildErr} (h : handleComputed m tn rel g r = .error e) :
    ∃ t r2, e = .modelLookupError t r2 ∧ resolvable m t r2 = false := by
  unfold handleComputed at h
  cases hr : getRelationE m tn r with
  | error e2 =>
      rw [hr, error_bind] at h
      obtain ⟨he, hres⟩ := getRelationE_error hr
      exact ⟨tn, r, by rw [← Except.error.inj h, he], hres⟩
  | ok name =>
      rw [hr, ok_bind, pure_ok] at h
      exact absurd h (by simp)

theorem handleTTU_isOk (m : AuthorizationModel) (tn rel : String) (g : DotGraph)
    (ts cr : String) : (handleTTU m tn rel g ts cr).isOk = resolvable m tn ts := by
  unfold handleTTU
  rw [← getRelationE_isOk m tn ts]
  cases getRelationE m tn ts with
  | error e => rw [error_bind, isOk_error, isOk_error]
  | ok name => rw [ok_bind, pure_ok, isOk_ok, isOk_ok]

theorem handleTTU_error {m : AuthorizationModel} {tn rel ts cr : String} {g : DotGraph}
    {e : BuildErr} (h : handleTTU m tn rel g ts cr = .error e) :
    ∃ t r2, e = .modelLookupError t r2 ∧ resolvable m t r2 = false := by
  unfold handleTTU at h
  cases hr : getRelationE m tn ts with
  | error e2 =>
      rw [hr, error_bind] at h
      obtain ⟨he, hres⟩ := getRelationE_error hr
      exact ⟨tn, ts, by rw [← Except.error.inj h, he], hres⟩
  | ok name =>
      rw [hr, ok_bind, pure_ok] at h
      exact absurd h (by simp)

mutual

theorem walkRewrite_isOk (m : AuthorizationModel) (tn rel : String) :
    ∀ (us : Userset) (g : DotGraph),
      (walkRewrite m tn rel g us).isOk = usResolves m tn rel us
  | .this, g => handleThis_isOk m tn rel g
  | .computedUserset r, g => handleComputed_isOk m tn rel g r
  | .tupleToUserset ts cr, g => handleTTU_isOk m tn rel g ts cr
  | .union cs, g => walkRewriteList_isOk m tn rel cs g
  | .intersection cs, g => walkRewriteList_isOk m tn rel cs g
  | .difference b s, g => by
      simp only [walkRewrite, usResolves]
      cases hb : walkRewrite m tn rel g b with
      | error e =>
          have hb2 := walkRewrite_isOk m tn rel b g
          rw [hb, isOk_error] at hb2
          rw [error_bind, isOk_error, ← hb2, Bool.false_and]
      | ok g1 =>
          have hb2 := walkRewrite_isOk m tn rel b g
          rw [hb, isOk_ok] at hb2
          rw [ok_bind, ← hb2, Bool.true_and]
          exact walkRewrite_isOk m tn rel s g1

theorem walkRewriteList_isOk (m : AuthorizationModel) (tn rel : String) :
    ∀ (cs : List Userset) (g : DotGraph),
      (walkRewriteList m tn rel g cs).isOk = usResolvesList m tn rel cs
  | [], g => rfl
  | c :: cs, g => by
      simp only [walkRewriteList, usResolvesList]
      cases hc : walkRewrite m tn rel g c with
      | error e =>
          have hc2 := walkRewrite_isOk m tn rel c g
          rw [hc, isOk_error] at hc2
          rw [error_bind, isOk_error, ← hc2, Bool.false_and]
      | ok g1 =>
          have hc2 := walkRewrite_isOk m tn rel c g
          rw [hc, isOk_ok] at hc2
          rw [ok_bind, ← hc2, Bool.true_and]
          exact walkRewriteList_isOk m tn rel cs g1

end

mutual

theorem walkRewrite_error (m : AuthorizationModel) (tn rel : String) :
    ∀ (us : Userset) (g : DotGraph) (e : BuildErr),
      walkRewrite m tn rel g us = .error e →
      ∃ t r, e = .modelLookupError t r ∧ resolvable m t r = false
  | .this, g, e, h => handleThis_error h
  | .computedUserset r, g, e, h => handleComputed_error h
  | .tupleToUserset ts cr, g, e, h => handleTTU_error h
  | .union cs, g, e, h => walkRewriteList_error m tn rel cs g e h
  | .intersection cs, g, e, h => walkRewriteList_error m tn rel cs g e h
  | .difference b s, g, e, h => by
      simp only [walkRewrite] at h
      cases hb : walkRewrite m tn rel g b with
      | error e2 =>
          rw [hb, error_bind] at h
          exact Except.error.inj h ▸ walkRewrite_error m tn rel b g e2 hb
      | ok g1 =>
          rw [hb, ok_bind] at h
          exact walkRewrite_error m tn rel s g1 e h

theorem walkRewriteList_error (m : AuthorizationModel) (tn rel : String) :
    ∀ (cs : List Userset) (g : DotGraph) (e : BuildErr),
      walkRewriteList m tn rel g cs = .error e →
      ∃ t r, e = .modelLookupError t r ∧ resolvable m t r = false
  | [], g, e, h => absurd h (by simp [walkRewriteList])
  | c :: cs, g, e, h => by
      simp only [walkRewriteList] at h
      cases hc : walkRewrite m tn rel g c with
      | error e2 =>
          rw [hc, error_bind] at h
          exact Except.error.inj h ▸ walkRewrite_error m tn rel c g e2 hc
      | ok g1 =>
          rw [hc, ok_bind] at h
          exact walkRewriteList_error m tn rel cs g1 e h

end

theorem processRelation_isOk (m : AuthorizationModel) (td : TypeDefinition) (g : DotGraph)
    (rel : String) :
    (processRelation m td g rel).isOk =
      (match td.relations.lookup rel with
       | some us => usResolves m td.type_ rel us
       | none => true) := by
  unfold processRelation
  cases td.relations.lookup rel with
  | none => rfl
  | some us => exact walkRewrite_isOk m td.type_ rel us _

theorem processRelation_error {m : AuthorizationModel} {td : TypeDefinition} {g : DotGraph}
    {rel : String} {e : BuildErr} (h : processRelation m td g rel = .error e) :
    ∃ t r, e = .modelLookupError t r ∧ resolvable m t r = false := by
  unfold processRelation at h
  cases hl : td.relations.lookup rel with
  | none =>
      rw [hl] at h
      exact absurd h (by simp)
  | some us =>
      rw [hl] at h
      exact walkRewrite_error m td.type_ rel us _ e h

theorem foldlM_isOk_all {α : Type} (f : DotGraph → α → Except BuildErr DotGraph)
    (p : α → Bool) (hf : ∀ g a, (f g a).isOk = p a) :
    ∀ (l : List α) (g : DotGraph), (l.foldlM f g).isOk = l.all p
  | [], g => rfl
  | a :: l, g => by
      rw [List.foldlM_cons, List.all_cons]
      cases ha : f g a with
      | error e =>
          have ha2 := hf g a
          rw [ha, isOk_error] at ha2
          rw [error_bind, isOk_error, ← ha2, Bool.false_and]
      | ok g1 =>
          have ha2 := hf g a
          rw [ha, isOk_ok] at ha2
          rw [ok_bind, ← ha2, Bool.true_and]
          exact foldlM_isOk_all f p hf l g1

theorem foldlM_error {α : Type} (f : DotGraph → α → Except BuildErr DotGraph)
    (P : BuildErr → Prop) (hf : ∀ g a e, f g a = .error e → P e) :
    ∀ (l : List α) (g : DotGraph) (e : BuildErr), l.foldlM f g = .error e → P e
  | [], g, e, h => absurd h (by simp [List.foldlM_nil, pure, Except.pure])
  | a :: l, g, e, h => by
      rw [List.foldlM_cons] at h
      cases ha : f g a with
      | error e2 =>
          rw [ha, error_bind] at h
          exact Except.error.inj h ▸ hf g a e2 ha
      | ok g1 =>
          rw [ha, ok_bind] at h
          exact foldlM_error f P hf l g1 e h

theorem processTypeDef_isOk (m : AuthorizationModel) (g : DotGraph) (td : TypeDefinition) :
    (processTypeDef m g td).isOk =
      (td.relations.map Prod.fst).all fun r =>
        match td.relations.lookup r with
        | some us => usResolves m td.type_ r us
        | none => true := by
  unfold processTypeDef
  rw [foldlM_isOk_all _ _ (fun g r => processRelation_isOk m td g r)]
  exact permAll (List.perm_insertionSort _ _) _

theorem processTypeDef_error {m : AuthorizationModel} {g : DotGraph} {td : TypeDefinition}
    {e : BuildErr} (h : processTypeDef m g td = .error e) :
    ∃ t r, e = .modelLookupError t r ∧ resolvable m t r = false := by
  unfold processTypeDef at h
  exact foldlM_error _ _ (fun g r e2 h2 => processRelation_error h2) _ _ e h

theorem buildGraph_isOk_eq (m : AuthorizationModel) :
    (buildGraph m).isOk = resolvesAll m := by
  unfold buildGraph resolvesAll
  rw [foldlM_isOk_all _ _ (fun g td => processTypeDef_isOk m g td)]
  exact permAll (List.perm_insertionSort _ _) _

/-! ### Claim C9 -/

/-- C9: the build succeeds exactly when every relation lookup it performs
resolves (the same-type lookups for Direct, ComputedReference and
TuplesetReference nodes); when it fails, the error is a ModelLookupError
naming a type and relation pair that does not resolve. The original claim's
stronger promise — failure whenever ANY referenced type or relation is
unresolvable — is refuted by `c9_counterexample`: an unresolvable type inside
the directly-related user types is never looked up and does not fail the
build. -/
theorem c9_build_errors (m : AuthorizationModel) :
    ((buildGraph m).isOk = true ↔ resolvesAll m = true)
    ∧ (∀ e, buildGraph m = .error e →
        ∃ t r, e = .modelLookupError t r ∧ resolvable m t r = false) := by
  refine ⟨by rw [buildGraph_isOk_eq], fun e he => ?_⟩
  unfold buildGraph at he
  exact foldlM_error _ _ (fun g td e2 h2 => processTypeDef_error h2) _ _ e he

/-- C9 witness: a computed reference to an undefined relation aborts the
build with the error naming the offending pair, and a fully resolvable model
builds successfully. -/
theorem c9_build_errors_witness :
    (buildGraph (⟨[⟨"t", [("a", .computedUserset "zzz")], []⟩]⟩ : AuthorizationModel)).isOk
        = false
    ∧ resolvesAll (⟨[⟨"t", [("a", .computedUserset "zzz")], []⟩]⟩ : AuthorizationModel) = false
    ∧ (∃ t r, BuildErr.modelLookupError "t" "zzz" = .modelLookupError t r
        ∧ resolvable (⟨[⟨"t", [("a", .computedUserset "zzz")], []⟩]⟩ : AuthorizationModel) t r
            = false)
    ∧ ((buildGraph cu1Model).isOk = true ↔ resolvesAll cu1Model = true) := by
  refine ⟨by decide, by decide, ?_, (c9_build_errors cu1Model).1⟩
  exact (c9_build_errors ⟨[⟨"t", [("a", .computedUserset "zzz")], []⟩]⟩).2
    (.modelLookupError "t" "zzz") (by decide)

/-- C9 fails as stated: `ghostModel`'s only relation is directly assignable
from the type "ghost" which is defined nowhere (its lookup cannot resolve),
yet the build succeeds instead of failing with a ModelLookupError. -/
theorem c9_counterexample :
    metadataOf ghostModel "t" "a" = [⟨"ghost", none, ""⟩]
    ∧ findTypeDef ghostModel "ghost" = none
    ∧ (buildGraph ghostModel).isOk = true := by
  exact ⟨by decide, by decide, by decide⟩


/-! ### Determinism of the build (claim C6)

The Go relation and metadata maps have no iteration order; the embedding
represents them as association lists, and two representations of the same
maps are permutations of each other with duplicate-free keys. Determinism
of the build is invariance of the result under such re-representation:
the builder sorts the relation names (and the type definitions) before
processing, which fixes the processing order and hence the edge sequence
numbers. -/

def tdEquiv (td1 td2 : TypeDefinition) : Prop :=
  td1.type_ = td2.type_
  ∧ td1.relations.Perm td2.relations
  ∧ td1.metadata.Perm td2.metadata
  ∧ (td1.relations.map Prod.fst).Nodup
  ∧ (td1.metadata.map Prod.fst).Nodup

def ModelEquiv (m1 m2 : AuthorizationModel) : Prop :=
  List.Forall₂ tdEquiv m1.typeDefinitions m2.typeDefinitions

theorem lookup_eq_of_perm {β : Type} {l1 l2 : List (String × β)} (h : l1.Perm l2)
    (nd : (l1.map Prod.fst).Nodup) (k : String) : l1.lookup k = l2.lookup k := by
  induction h with
  | nil => rfl
  | cons a h ih =>
      simp only [List.lookup]
      cases hk : k == a.1
      · simp only [List.map_cons, List.nodup_cons] at nd
        exact ih nd.2
      · rfl
  | swap a b l =>
      simp only [List.lookup]
      cases hkb : k == b.1 <;> cases hka : k == a.1 <;> try rfl
      simp only [List.map_cons, List.nodup_cons, List.mem_cons] at nd
      have hba : b.1 = a.1 := (eq_of_beq hkb).symm.trans (eq_of_beq hka)
      exact absurd (Or.inl hba) nd.1
  | trans h1 h2 ih1 ih2 =>
      rw [ih1 nd, ih2 ((h1.map Prod.fst).nodup_iff.mp nd)]

theorem find?_forall2 {α : Type} {R : α → α → Prop} {p : α → Bool}
    (hp : ∀ a b, R a b → p a = p b) :
    ∀ {l1 l2 : List α}, List.Forall₂ R l1 l2 → Option.Rel R (l1.find? p) (l2.find? p)
  | [], [], List.Forall₂.nil => Option.Rel.none
  | a :: l1, b :: l2, List.Forall₂.cons hab ht => by
      simp only [List.find?]
      cases hpa : p a
      · rw [← hp a b hab, hpa]
        exact find?_forall2 hp ht
      · rw [← hp a b hab, hpa]
        exact Option.Rel.some hab

theorem findTypeDef_equiv {m1 m2 : AuthorizationModel} (h : ModelEquiv m1 m2) (t : String) :
    Option.Rel tdEquiv (findTypeDef m1 t) (findTypeDef m2 t) := by
  unfold findTypeDef
  exact find?_forall2 (fun a b hab => by rw [hab.1]) h

theorem getRelationE_equiv {m1 m2 : AuthorizationModel} (h : ModelEquiv m1 m2)
    (t r : String) : getRelationE m1 t r = getRelationE m2 t r := by
  have hrel := findTypeDef_equiv h t
  unfold getRelationE
  revert hrel
  generalize findTypeDef m1 t = o1
  generalize findTypeDef m2 t = o2
  intro hrel
  cases hrel with
  | none => rfl
  | some htd =>
      dsimp only
      rw [lookup_eq_of_perm htd.2.1 htd.2.2.2.1 r]

theorem metadataOf_equiv {m1 m2 : AuthorizationModel} (h : ModelEquiv m1 m2)
    (t r : String) : metadataOf m1 t r = metadataOf m2 t r := by
  have hrel := findTypeDef_equiv h t
  unfold metadataOf
  revert hrel
  generalize findTypeDef m1 t = o1
  generalize findTypeDef m2 t = o2
  intro hrel
  cases hrel with
  | none => rfl
  | some htd =>
      dsimp only
      rw [lookup_eq_of_perm htd.2.2.1 htd.2.2.2.2 r]

theorem handleThis_equiv {m1 m2 : AuthorizationModel} (h : ModelEquiv m1 m2)
    (tn rel : String) (g : DotGraph) :
    handleThis m1 tn rel g = handleThis m2 tn rel g := by
  unfold handleThis getDirectlyRelated
  rw [getRelationE_equiv h, metadataOf_equiv h]

theorem handleComputed_equiv {m1 m2 : AuthorizationModel} (h : ModelEquiv m1 m2)
    (tn rel : String) (g : DotGraph) (r : String) :
    handleComputed m1 tn rel g r = handleComputed m2 tn rel g r := by
  unfold handleComputed
  rw [getRelationE_equiv h]

theorem handleTTU_equiv {m1 m2 : AuthorizationModel} (h : ModelEquiv m1 m2)
    (tn rel : String) (g : DotGraph) (ts cr : String) :
    handleTTU m1 tn rel g ts cr = handleTTU m2 tn rel g ts cr := by
  unfold handleTTU
  rw [getRelationE_equiv h, metadataOf_equiv h]

mutual

theorem walkRewrite_equiv {m1 m2 : AuthorizationModel} (h : ModelEquiv m1 m2)
    (tn rel : String) :
    ∀ (us : Userset) (g : DotGraph),
      walkRewrite m1 tn rel g us = walkRewrite m2 tn rel g us
  | .this, g => handleThis_equiv h tn rel g
  | .computedUserset r, g => handleComputed_equiv h tn rel g r
  | .tupleToUserset ts cr, g => handleTTU_equiv h tn rel g ts cr
  | .union cs, g => walkRewriteList_equiv h tn rel cs g
  | .intersection cs, g => walkRewriteList_equiv h tn rel cs g
  | .difference b s, g => by
      simp only [walkRewrite]
      rw [walkRewrite_equiv h tn rel b g]
      cases walkRewrite m2 tn rel g b with
      | error e => rw [error_bind, error_bind]
      | ok g1 =>
          rw [ok_bind, ok_bind]
          exact walkRewrite_equiv h tn rel s g1

theorem walkRewriteList_equiv {m1 m2 : AuthorizationModel} (h : ModelEquiv m1 m2)
    (tn rel : String) :
    ∀ (cs : List Userset) (g : DotGraph),
      walkRewriteList m1 tn rel g cs = walkRewriteList m2 tn rel g cs
  | [], g => rfl
  | c :: cs, g => by
      simp only [walkRewriteList]
      rw [walkRewrite_equiv h tn rel c g]
      cases walkRewrite m2 tn rel g c with
      | error e => rw [error_bind, error_bind]
      | ok g1 =>
          rw [ok_bind, ok_bind]
          exact walkRewriteList_equiv h tn rel cs g1

end

theorem foldlM_congr {α : Type} {f1 f2 : DotGraph → α → Except BuildErr DotGraph}
    (hf : ∀ g a, f1 g a = f2 g a) :
    ∀ (l : List α) (g : DotGraph), l.foldlM f1 g = l.foldlM f2 g
  | [], g => rfl
  | a :: l, g => by
      rw [List.foldlM_cons, List.foldlM_cons, hf g a]
      cases f2 g a with
      | error e => rw [error_bind, error_bind]
      | ok g1 =>
          rw [ok_bind, ok_bind]
          exact foldlM_congr hf l g1

theorem processRelation_equiv {m1 m2 : AuthorizationModel} {td1 td2 : TypeDefinition}
    (h : ModelEquiv m1 m2) (htd : tdEquiv td1 td2) (g : DotGraph) (rel : String) :
    processRelation m1 td1 g rel = processRelation m2 td2 g rel := by
  unfold processRelation
  rw [htd.1, lookup_eq_of_perm htd.2.1 htd.2.2.2.1 rel]
  cases td2.relations.lookup rel with
  | none => rfl
  | some us => exact walkRewrite_equiv h td2.type_ rel us _

theorem processTypeDef_equiv {m1 m2 : AuthorizationModel} {td1 td2 : TypeDefinition}
    (h : ModelEquiv m1 m2) (htd : tdEquiv td1 td2) (g : DotGraph) :
    processTypeDef m1 g td1 = processTypeDef m2 g td2 := by
  unfold processTypeDef
  have hkeys : List.insertionSort (fun a b => strLe a b = true) (td1.relations.map Prod.fst)
      = List.insertionSort (fun a b => strLe a b = true) (td2.relations.map Prod.fst) := by
    exact @List.eq_of_perm_of_sorted String (fun a b => strLe a b = true) _ _ _
      ((List.perm_insertionSort _ _).trans
        ((htd.2.1.map Prod.fst).trans (List.perm_insertionSort _ _).symm))
      (List.sorted_insertionSort _ _) (List.sorted_insertionSort _ _)
  rw [htd.1, hkeys]
  exact foldlM_congr (fun g rel => processRelation_equiv h htd g rel) _ _

theorem orderedInsert_forall2 {R : TypeDefinition → TypeDefinition → Prop}
    (hR : ∀ a b, R a b → a.type_ = b.type_) {a b : TypeDefinition} (hab : R a b) :
    ∀ {l1 l2 : List TypeDefinition}, List.Forall₂ R l1 l2 →
      List.Forall₂ R
        (List.orderedInsert (fun x y => strLe x.type_ y.type_ = true) a l1)
        (List.orderedInsert (fun x y => strLe x.type_ y.type_ = true) b l2)
  | [], [], List.Forall₂.nil => List.Forall₂.cons hab List.Forall₂.nil
  | x :: l1, y :: l2, List.Forall₂.cons hxy ht => by
      have h1 := hR a b hab
      have h2 := hR x y hxy
      simp only [List.orderedInsert, h1, h2]
      by_cases hc : strLe b.type_ y.type_ = true
      · simp only [hc, if_true]
        exact List.Forall₂.cons hab (List.Forall₂.cons hxy ht)
      · simp only [hc, if_false]
        exact List.Forall₂.cons hxy (orderedInsert_forall2 hR hab ht)

theorem insertionSort_forall2 {R : TypeDefinition → TypeDefinition → Prop}
    (hR : ∀ a b, R a b → a.type_ = b.type_) :
    ∀ {l1 l2 : List TypeDefinition}, List.Forall₂ R l1 l2 →
      List.Forall₂ R
        (List.insertionSort (fun x y => strLe x.type_ y.type_ = true) l1)
        (List.insertionSort (fun x y => strLe x.type_ y.type_ = true) l2)
  | [], [], List.Forall₂.nil => List.Forall₂.nil
  | x :: l1, y :: l2, List.Forall₂.cons hxy ht => by
      simp only [List.insertionSort]
      exact orderedInsert_forall2 hR hxy (insertionSort_forall2 hR ht)

theorem foldlM_forall2 {α : Type} {R : α → α → Prop}
    {f1 f2 : DotGraph → α → Except BuildErr DotGraph}
    (hf : ∀ g a b, R a b → f1 g a = f2 g b) :
    ∀ {l1 l2 : List α}, List.Forall₂ R l1 l2 →
      ∀ g : DotGraph, l1.foldlM f1 g = l2.foldlM f2 g
  | [], [], List.Forall₂.nil, g => rfl
  | a :: l1, b :: l2, List.Forall₂.cons hab ht, g => by
      rw [List.foldlM_cons, List.foldlM_cons, hf g a b hab]
      cases f2 g b with
      | error e => rw [error_bind, error_bind]
      | ok g1 =>
          rw [ok_bind, ok_bind]
          exact foldlM_forall2 hf ht g1

/-! ### Claim C6 -/

/-- C6: the builder is deterministic. Two models that differ only in the
(unordered) representation of their relation and metadata maps — each type
definition has the same name and the same maps as association lists up to
permutation, with duplicate-free keys — build to the same graph: the same
node list, the same line list and the same sequence numbers, because the
type definitions are processed sorted by name and the relation names sorted
ascending within each type. -/
theorem c6_build_deterministic (m1 m2 : AuthorizationModel) (h : ModelEquiv m1 m2) :
    buildGraph m1 = buildGraph m2 := by
  unfold buildGraph
  have hsorted : List.Forall₂ tdEquiv (sortedTypeDefs m1) (sortedTypeDefs m2) :=
    insertionSort_forall2 (fun a b hab => hab.1) h
  exact @foldlM_forall2 TypeDefinition tdEquiv _ _
    (fun g a b hab => processTypeDef_equiv h hab g) _ _ hsorted emptyGraph

/-- C6 witness: a two-relation type with the relation and metadata lists
given in opposite orders builds to the same graph. -/
theorem c6_build_deterministic_witness :
    ModelEquiv
      ⟨[⟨"t", [("a", .this), ("b", .this)], [("a", [⟨"user", none, ""⟩]), ("b", [])]⟩, userTd]⟩
      ⟨[⟨"t", [("b", .this), ("a", .this)], [("b", []), ("a", [⟨"user", none, ""⟩])]⟩, userTd]⟩
    ∧ buildGraph
        ⟨[⟨"t", [("a", .this), ("b", .this)], [("a", [⟨"user", none, ""⟩]), ("b", [])]⟩, userTd]⟩
      = buildGraph
        ⟨[⟨"t", [("b", .this), ("a", .this)], [("b", []), ("a", [⟨"user", none, ""⟩])]⟩, userTd]⟩ := by
  have h : ModelEquiv
      ⟨[⟨"t", [("a", .this), ("b", .this)], [("a", [⟨"user", none, ""⟩]), ("b", [])]⟩, userTd]⟩
      ⟨[⟨"t", [("b", .this), ("a", .this)], [("b", []), ("a", [⟨"user", none, ""⟩])]⟩, userTd]⟩ := by
    refine List.Forall₂.cons ⟨rfl, ?_, ?_, by decide, by decide⟩
      (List.Forall₂.cons ⟨rfl, List.Perm.refl _, List.Perm.refl _, by decide, by decide⟩
        List.Forall₂.nil)
    · exact List.Perm.swap _ _ _
    · exact List.Perm.swap _ _ _
  exact ⟨h, c6_build_deterministic _ _ h⟩


/-! ### The node set of a built graph (claim C8) -/

/-- The base contribution of one type definition to the pre-prune node set:
the type node, its wildcard node and one node per relation. -/
def tdBase (td : TypeDefinition) : List String :=
  td.type_ :: (td.type_ ++ ":*") :: td.relations.map fun p => relationNodeName td.type_ p.1

/-- The node labels the loop of `buildGraph` interns unconditionally:
{types} ∪ {type wildcards} ∪ {type#relation}. -/
def baseNodes (m : AuthorizationModel) : List String :=
  m.typeDefinitions.flatMap tdBase

/-- A decorated condition-variant label: it starts with the space that
`rewriteHandler` prepends to every conditioned source. -/
def isDecorated (lbl : String) : Bool :=
  match lbl.data with
  | c :: _ => c = ' '
  | [] => false

/-- Is the label an endpoint of some line? -/
def referencedBy (lines : List DotLine) (lbl : String) : Bool :=
  lines.any fun l => l.src = lbl || l.dst = lbl

theorem isDecorated_space_append (y : String) : isDecorated (" " ++ y) = true := by
  have h : (" " ++ y).data = ' ' :: y.data := by cases y; rfl
  unfold isDecorated
  rw [h]
  simp

theorem isDecorated_append (s t : String) (h : isDecorated s = true) :
    isDecorated (s ++ t) = true := by
  cases s with
  | mk d =>
      cases d with
      | nil => exact absurd h (by simp [isDecorated])
      | cons c cs =>
          have hd : (String.mk (c :: cs) ++ t).data = c :: (cs ++ t.data) := by cases t; rfl
          unfold isDecorated at h ⊢
          rw [hd]
          simpa using h

theorem isDecorated_decorate {ref : RelationReference} (h : ¬ref.condition = "") :
    isDecorated (decorate ref) = true := by
  unfold decorate
  simp only [h, if_false]
  have : " " ++ ref.type_ ++ "[with " ++ ref.condition ++ "]"
      = " " ++ (ref.type_ ++ "[with " ++ ref.condition ++ "]") := by
    simp [String.append_assoc]
  rw [this]
  exact isDecorated_space_append _

theorem lookup_isSome_mem_keys {β : Type} {l : List (String × β)} {k : String}
    (h : (l.lookup k).isSome = true) : k ∈ l.map Prod.fst := by
  induction l with
  | nil => simp [List.lookup] at h
  | cons a l ih =>
      simp only [List.lookup] at h
      cases hk : k == a.1
      · rw [hk] at h
        exact List.mem_cons_of_mem _ (ih h)
      · exact eq_of_beq hk ▸ List.mem_cons_self _ _

theorem findTypeDef_mem {m : AuthorizationModel} {t : String} {td : TypeDefinition}
    (h : findTypeDef m t = some td) : td ∈ m.typeDefinitions ∧ td.type_ = t := by
  unfold findTypeDef at h
  exact ⟨List.mem_of_find?_eq_some h, by simpa using List.find?_some h⟩

theorem type_mem_base {m : AuthorizationModel} {td : TypeDefinition}
    (h : td ∈ m.typeDefinitions) : td.type_ ∈ baseNodes m := by
  unfold baseNodes
  exact List.mem_flatMap.mpr ⟨td, h, List.mem_cons_self _ _⟩

theorem wildcard_mem_base {m : AuthorizationModel} {td : TypeDefinition}
    (h : td ∈ m.typeDefinitions) : td.type_ ++ ":*" ∈ baseNodes m := by
  unfold baseNodes
  exact List.mem_flatMap.mpr ⟨td, h, List.mem_cons_of_mem _ (List.mem_cons_self _ _)⟩

theorem relNode_mem_base {m : AuthorizationModel} {td : TypeDefinition} {r : String}
    (h : td ∈ m.typeDefinitions) (hr : r ∈ td.relations.map Prod.fst) :
    relationNodeName td.type_ r ∈ baseNodes m := by
  unfold baseNodes
  refine List.mem_flatMap.mpr ⟨td, h, ?_⟩
  unfold tdBase
  refine List.mem_cons_of_mem _ (List.mem_cons_of_mem _ ?_)
  simp only [List.mem_map] at hr ⊢
  obtain ⟨p, hp, hpe⟩ := hr
  exact ⟨p, hp, by rw [hpe]⟩

theorem relNode_mem_base_of_resolvable {m : AuthorizationModel} {t r : String}
    {td : TypeDefinition} (hf : findTypeDef m t = some td)
    (hr : (td.relations.lookup r).isSome = true) :
    relationNodeName t r ∈ baseNodes m := by
  obtain ⟨hmem, hname⟩ := findTypeDef_mem hf
  have := relNode_mem_base hmem (lookup_isSome_mem_keys hr)
  rw [hname] at this
  exact this

/-- The invariant of claim C8: every interned node is a base node or a
decorated condition-variant referenced by some line. -/
def NodesOK (m : AuthorizationModel) (g : DotGraph) : Prop :=
  ∀ lbl ∈ g.nodes, lbl ∈ baseNodes m
    ∨ (isDecorated lbl = true ∧ referencedBy g.lines lbl = true)

theorem referencedBy_append (lines : List DotLine) (new : List DotLine) (lbl : String)
    (h : referencedBy lines lbl = true) : referencedBy (lines ++ new) lbl = true := by
  unfold referencedBy at h ⊢
  rw [List.any_append, h, Bool.true_or]

theorem nodesOK_addOrGetNode {m : AuthorizationModel} {g : DotGraph} {lbl : String}
    (hbase : lbl ∈ baseNodes m) (h : NodesOK m g) : NodesOK m (addOrGetNode g lbl) := by
  intro x hx
  rw [addOrGetNode_lines]
  unfold addOrGetNode at hx
  split at hx
  · exact h x hx
  · simp only [List.mem_append, List.mem_singleton] at hx
    rcases hx with hx | hx
    · exact h x hx
    · exact Or.inl (hx ▸ hbase)

theorem hasLine_referencedBy {g : DotGraph} {src dst hl : String}
    (h : hasLine g src dst hl = true) :
    referencedBy g.lines src = true ∧ referencedBy g.lines dst = true := by
  unfold hasLine at h
  unfold referencedBy
  simp only [List.any_eq_true, Bool.and_eq_true, decide_eq_true_eq] at h
  obtain ⟨l, hl2, ⟨⟨hsr, hds⟩, hhl⟩⟩ := h
  constructor
  · exact List.any_eq_true.mpr ⟨l, hl2, by simp [hsr]⟩
  · exact List.any_eq_true.mpr ⟨l, hl2, by simp [hds]⟩

theorem mem_addOrGetNode_cases {g : DotGraph} {lbl x : String}
    (h : x ∈ (addOrGetNode g lbl).nodes) : x ∈ g.nodes ∨ x = lbl := by
  unfold addOrGetNode at h
  split at h
  · exact Or.inl h
  · simpa using h

theorem addEdge_nodes (g : DotGraph) (src dst hl st : String) :
    (addEdge g src dst hl st).nodes = (addOrGetNode (addOrGetNode g src) dst).nodes := by
  unfold addEdge
  by_cases h : hasLine (addOrGetNode (addOrGetNode g src) dst) src dst hl = true
  · simp only [h, if_true]
  · simp only [Bool.not_eq_true] at h
    simp only [h, Bool.false_eq_true, if_false]

theorem addEdge_lines_new {g : DotGraph} {src dst hl : String} (st : String)
    (h : hasLine g src dst hl = false) :
    (addEdge g src dst hl st).lines
      = g.lines ++ [⟨src, dst, hl, st, g.edgeCounter + 1⟩] := by
  unfold addEdge
  have h1 : hasLine (addOrGetNode (addOrGetNode g src) dst) src dst hl = false := by
    rw [hasLine_addOrGetNode, hasLine_addOrGetNode]
    exact h
  simp only [h1, Bool.false_eq_true, if_false]
  rw [addOrGetNode_lines, addOrGetNode_lines, addOrGetNode_counter, addOrGetNode_counter]

theorem referencedBy_addEdge {g : DotGraph} (src dst hl st : String) {x : String}
    (h : referencedBy g.lines x = true) :
    referencedBy (addEdge g src dst hl st).lines x = true := by
  cases hdup : hasLine g src dst hl
  · rw [addEdge_lines_new st hdup]
    exact referencedBy_append _ _ _ h
  · rw [(addEdge_of_hasLine st hdup).1]
    exact h

theorem referencedBy_addEdge_src (g : DotGraph) (src dst hl st : String) :
    referencedBy (addEdge g src dst hl st).lines src = true := by
  cases hdup : hasLine g src dst hl
  · rw [addEdge_lines_new st hdup]
    unfold referencedBy
    rw [List.any_append]
    have : (List.any [(⟨src, dst, hl, st, g.edgeCounter + 1⟩ : DotLine)]
        fun l => l.src = src || l.dst = src) = true := by simp
    rw [this, Bool.or_true]
  · rw [(addEdge_of_hasLine st hdup).1]
    exact (hasLine_referencedBy hdup).1

theorem nodesOK_addEdge {m : AuthorizationModel} {g : DotGraph} {src dst hl st : String}
    (hdst : dst ∈ baseNodes m) (hsrc : src ∈ baseNodes m ∨ isDecorated src = true)
    (h : NodesOK m g) : NodesOK m (addEdge g src dst hl st) := by
  intro x hx
  rw [addEdge_nodes] at hx
  rcases mem_addOrGetNode_cases hx with hx2 | hx2
  · rcases mem_addOrGetNode_cases hx2 with hx3 | hx3
    · rcases h x hx3 with h2 | ⟨h2, h3⟩
      · exact Or.inl h2
      · exact Or.inr ⟨h2, referencedBy_addEdge src dst hl st h3⟩
    · subst hx3
      rcases hsrc with h2 | h2
      · exact Or.inl h2
      · exact Or.inr ⟨h2, referencedBy_addEdge_src g x dst hl st⟩
  · exact Or.inl (hx2 ▸ hdst)


/-- Validity of one directly-assignable reference for claim C8: an
unconditioned reference must name a defined type (and, when it carries a
sub-relation, a relation defined on that type) so that its source label is
a base node; a conditioned reference always produces a decorated node. -/
def refOKCond (m : AuthorizationModel) (ref : RelationReference) : Bool :=
  if ref.condition = "" then
    match ref.relOrWildcard with
    | some (.rel rr) =>
        rr = "" || (match findTypeDef m ref.type_ with
                    | some td => (td.relations.lookup rr).isSome
                    | none => false)
    | some .wildcard => (findTypeDef m ref.type_).isSome
    | none => (findTypeDef m ref.type_).isSome
  else true

/-- Validity of one tupleset-related reference: the computed relation must
be defined on the referenced type when there is no condition. -/
def ttuRefOK (m : AuthorizationModel) (cr : String) (ref : RelationReference) : Bool :=
  if ref.condition = "" then
    match findTypeDef m ref.type_ with
    | some td => (td.relations.lookup cr).isSome
    | none => false
  else true

mutual

/-- The validated-model condition of claim C8, per rewrite node: every
unconditioned reference reachable by the walk points at base nodes. -/
def usRefsOK (m : AuthorizationModel) (t rel : String) : Userset → Bool
  | .this => (metadataOf m t rel).all (refOKCond m)
  | .computedUserset _ => true
  | .tupleToUserset ts cr => (metadataOf m t ts).all (ttuRefOK m cr)
  | .union cs => usRefsOKList m t rel cs
  | .intersection cs => usRefsOKList m t rel cs
  | .difference b s => usRefsOK m t rel b && usRefsOK m t rel s

def usRefsOKList (m : AuthorizationModel) (t rel : String) : List Userset → Bool
  | [] => true
  | c :: cs => usRefsOK m t rel c && usRefsOKList m t rel cs

end

/-- The validated-model condition of claim C8 for the whole model. -/
def modelRefsOK (m : AuthorizationModel) : Bool :=
  m.typeDefinitions.all fun td =>
    (td.relations.map Prod.fst).all fun r =>
      match td.relations.lookup r with
      | some us => usRefsOK m td.type_ r us
      | none => true

theorem getRelationE_ok_facts {m : AuthorizationModel} {t r name : String}
    (h : getRelationE m t r = .ok name) :
    name = r ∧ ∃ td, findTypeDef m t = some td ∧ (td.relations.lookup r).isSome = true := by
  unfold getRelationE at h
  cases hf : findTypeDef m t with
  | none =>
      rw [hf] at h
      exact absurd h (by simp)
  | some td =>
      rw [hf] at h
      cases hs : (td.relations.lookup r).isSome
      · simp only [hs, Bool.false_eq_true, if_false] at h
        exact absurd h (by simp)
      · simp only [hs, if_true] at h
        exact ⟨(Except.ok.inj h).symm, td, rfl, hs⟩

theorem nodesOK_thisCaseStep {m : AuthorizationModel} {g : DotGraph} {rn : String}
    {ref : RelationReference} (hdst : rn ∈ baseNodes m)
    (href : refOKCond m ref = true) (h : NodesOK m g) :
    NodesOK m (thisCaseStep rn g ref) := by
  unfold thisCaseStep
  unfold refOKCond at href
  by_cases hc : ref.condition = ""
  · simp only [hc, if_true] at href
    have hdec : decorate ref = ref.type_ := by simp [decorate, hc]
    cases hrw : ref.relOrWildcard with
    | none =>
        rw [hrw] at href
        cases hf : findTypeDef m ref.type_ with
        | none => rw [hf] at href; simp at href
        | some td =>
            refine nodesOK_addEdge hdst (Or.inl ?_) h
            rw [hdec]
            have := type_mem_base (findTypeDef_mem hf).1
            rw [(findTypeDef_mem hf).2] at this
            exact this
    | some rw2 =>
        cases rw2 with
        | wildcard =>
            rw [hrw] at href
            cases hf : findTypeDef m ref.type_ with
            | none => rw [hf] at href; simp at href
            | some td =>
                refine nodesOK_addEdge hdst (Or.inl ?_) h
                rw [hdec]
                have := wildcard_mem_base (findTypeDef_mem hf).1
                rw [(findTypeDef_mem hf).2] at this
                exact this
        | rel rr =>
            rw [hrw] at href
            by_cases hrr : rr = ""
            · simp only [hrr, if_true]
              exact h
            · simp only [hrr, if_false]
              simp only [hrr, decide_eq_true_eq, Bool.or_eq_true, decide_eq_true_eq] at href
              rcases href with href | href
              · exact href.elim
              · cases hf : findTypeDef m ref.type_ with
                | none => rw [hf] at href; simp at href
                | some td =>
                    rw [hf] at href
                    refine nodesOK_addEdge hdst (Or.inl ?_) h
                    rw [hdec]
                    exact relNode_mem_base_of_resolvable hf href
  · have hdec : isDecorated (decorate ref) = true := isDecorated_decorate hc
    cases ref.relOrWildcard with
    | none => exact nodesOK_addEdge hdst (Or.inr hdec) h
    | some rw2 =>
        cases rw2 with
        | wildcard => exact nodesOK_addEdge hdst (Or.inr (isDecorated_append _ _ hdec)) h
        | rel rr =>
            by_cases hrr : rr = ""
            · simp only [hrr, if_true]
              exact h
            · simp only [hrr, if_false]
              exact nodesOK_addEdge hdst
                (Or.inr (isDecorated_append _ _ (isDecorated_append _ _ hdec))) h

theorem nodesOK_foldl_mem {m : AuthorizationModel} {α : Type} (f : DotGraph → α → DotGraph) :
    ∀ (l : List α), (∀ g a, a ∈ l → NodesOK m g → NodesOK m (f g a)) →
      ∀ g, NodesOK m g → NodesOK m (l.foldl f g)
  | [], _, g, hg => hg
  | a :: l, hf, g, hg => by
      rw [List.foldl_cons]
      exact nodesOK_foldl_mem f l (fun g2 b hb => hf g2 b (List.mem_cons_of_mem a hb))
        (f g a) (hf g a (List.mem_cons_self a l) hg)

theorem nodesOK_handleThis {m : AuthorizationModel} {tn rel : String} {g g2 : DotGraph}
    (hdst : relationNodeName tn rel ∈ baseNodes m)
    (hall : (metadataOf m tn rel).all (refOKCond m) = true)
    (hg : NodesOK m g) (h : handleThis m tn rel g = .ok g2) : NodesOK m g2 := by
  unfold handleThis getDirectlyRelated at h
  cases hr : getRelationE m tn rel with
  | error e =>
      rw [hr, error_bind, error_bind] at h
      exact absurd h (by simp)
  | ok name =>
      rw [hr, ok_bind, pure_ok, ok_bind, pure_ok] at h
      rw [List.all_eq_true] at hall
      refine (Except.ok.inj h) ▸ nodesOK_foldl_mem _ _ ?_ g hg
      intro g3 ref href hg3
      exact nodesOK_thisCaseStep hdst (hall ref href) hg3

theorem nodesOK_handleComputed {m : AuthorizationModel} {tn rel r : String} {g g2 : DotGraph}
    (hdst : relationNodeName tn rel ∈ baseNodes m)
    (hg : NodesOK m g) (h : handleComputed m tn rel g r = .ok g2) : NodesOK m g2 := by
  unfold handleComputed at h
  cases hr : getRelationE m tn r with
  | error e =>
      rw [hr, error_bind] at h
      exact absurd h (by simp)
  | ok name =>
      rw [hr, ok_bind, pure_ok] at h
      obtain ⟨hname, td, hf, hs⟩ := getRelationE_ok_facts hr
      refine (Except.ok.inj h) ▸ nodesOK_addEdge hdst (Or.inl ?_) hg
      rw [hname]
      exact relNode_mem_base_of_resolvable hf hs

theorem nodesOK_handleTTU {m : AuthorizationModel} {tn rel ts cr : String} {g g2 : DotGraph}
    (hdst : relationNodeName tn rel ∈ baseNodes m)
    (hall : (metadataOf m tn ts).all (ttuRefOK m cr) = true)
    (hg : NodesOK m g) (h : handleTTU m tn rel g ts cr = .ok g2) : NodesOK m g2 := by
  unfold handleTTU at h
  cases hr : getRelationE m tn ts with
  | error e =>
      rw [hr, error_bind] at h
      exact absurd h (by simp)
  | ok name =>
      rw [hr, ok_bind, pure_ok] at h
      rw [List.all_eq_true] at hall
      refine (Except.ok.inj h) ▸ nodesOK_foldl_mem _ _ ?_ g hg
      intro g3 ref href hg3
      have href := hall ref href
      unfold ttuRefOK at href
      by_cases hc : ref.condition = ""
      · simp only [hc, if_true] at href
        cases hf : findTypeDef m ref.type_ with
        | none => rw [hf] at href; simp at href
        | some td =>
            rw [hf] at href
            refine nodesOK_addEdge hdst (Or.inl ?_) hg3
            have hdec : decorate ref = ref.type_ := by simp [decorate, hc]
            rw [hdec]
            exact relNode_mem_base_of_resolvable hf href
      · exact nodesOK_addEdge hdst (Or.inr (isDecorated_append _ _ (isDecorated_append _ _
          (isDecorated_decorate hc)))) hg3

mutual

theorem nodesOK_walkRewrite (m : AuthorizationModel) (tn rel : String)
    (hdst : relationNodeName tn rel ∈ baseNodes m) :
    ∀ (us : Userset) (g g2 : DotGraph), usRefsOK m tn rel us = true → NodesOK m g →
      walkRewrite m tn rel g us = .ok g2 → NodesOK m g2
  | .this, g, g2, husok, hg, h => nodesOK_handleThis hdst husok hg h
  | .computedUserset r, g, g2, husok, hg, h => nodesOK_handleComputed hdst hg h
  | .tupleToUserset ts cr, g, g2, husok, hg, h => nodesOK_handleTTU hdst husok hg h
  | .union cs, g, g2, husok, hg, h => nodesOK_walkRewriteList m tn rel hdst cs g g2 husok hg h
  | .intersection cs, g, g2, husok, hg, h =>
      nodesOK_walkRewriteList m tn rel hdst cs g g2 husok hg h
  | .difference b s, g, g2, husok, hg, h => by
      simp only [usRefsOK, Bool.and_eq_true] at husok
      simp only [walkRewrite] at h
      cases hb : walkRewrite m tn rel g b with
      | error e => rw [hb, error_bind] at h; exact absurd h (by simp)
      | ok g1 =>
          rw [hb, ok_bind] at h
          exact nodesOK_walkRewrite m tn rel hdst s g1 g2 husok.2
            (nodesOK_walkRewrite m tn rel hdst b g g1 husok.1 hg hb) h

theorem nodesOK_walkRewriteList (m : AuthorizationModel) (tn rel : String)
    (hdst : relationNodeName tn rel ∈ baseNodes m) :
    ∀ (cs : List Userset) (g g2 : DotGraph), usRefsOKList m tn rel cs = true → NodesOK m g →
      walkRewriteList m tn rel g cs = .ok g2 → NodesOK m g2
  | [], g, g2, husok, hg, h => by
      simp only [walkRewriteList, Except.ok.injEq] at h
      exact h ▸ hg
  | c :: cs, g, g2, husok, hg, h => by
      simp only [usRefsOKList, Bool.and_eq_true] at husok
      simp only [walkRewriteList] at h
      cases hc : walkRewrite m tn rel g c with
      | error e => rw [hc, error_bind] at h; exact absurd h (by simp)
      | ok g1 =>
          rw [hc, ok_bind] at h
          exact nodesOK_walkRewriteList m tn rel hdst cs g1 g2 husok.2
            (nodesOK_walkRewrite m tn rel hdst c g g1 husok.1 hg hc) h

end


theorem addEdge_nodes_mono {g : DotGraph} (src dst hl st : String) {x : String}
    (hx : x ∈ g.nodes) : x ∈ (addEdge g src dst hl st).nodes := by
  rw [addEdge_nodes]
  exact mem_addOrGetNode_of_mem dst (mem_addOrGetNode_of_mem src hx)

theorem thisCaseStep_nodes_mono {g : DotGraph} (rn : String) (ref : RelationReference)
    {x : String} (hx : x ∈ g.nodes) : x ∈ (thisCaseStep rn g ref).nodes := by
  unfold thisCaseStep
  cases ref.relOrWildcard with
  | none => exact addEdge_nodes_mono _ _ _ _ hx
  | some rw2 =>
      cases rw2 with
      | wildcard => exact addEdge_nodes_mono _ _ _ _ hx
      | rel rr =>
          by_cases hrr : rr = ""
          · simp only [hrr, if_true]
            exact hx
          · simp only [hrr, if_false]
            exact addEdge_nodes_mono _ _ _ _ hx

theorem foldl_nodes_mono {α : Type} (f : DotGraph → α → DotGraph)
    (hf : ∀ g a x, x ∈ g.nodes → x ∈ (f g a).nodes) :
    ∀ (l : List α) (g : DotGraph) (x : String), x ∈ g.nodes → x ∈ (l.foldl f g).nodes
  | [], g, x, hx => hx
  | a :: l, g, x, hx => by
      rw [List.foldl_cons]
      exact foldl_nodes_mono f hf l (f g a) x (hf g a x hx)

theorem handleThis_nodes_mono {m : AuthorizationModel} {tn rel : String} {g g2 : DotGraph}
    (h : handleThis m tn rel g = .ok g2) {x : String} (hx : x ∈ g.nodes) : x ∈ g2.nodes := by
  unfold handleThis getDirectlyRelated at h
  cases hr : getRelationE m tn rel with
  | error e => rw [hr, error_bind, error_bind] at h; exact absurd h (by simp)
  | ok name =>
      rw [hr, ok_bind, pure_ok, ok_bind, pure_ok] at h
      exact (Except.ok.inj h) ▸
        foldl_nodes_mono _ (fun g a x hx => thisCaseStep_nodes_mono _ a hx) _ g x hx

theorem handleComputed_nodes_mono {m : AuthorizationModel} {tn rel r : String}
    {g g2 : DotGraph} (h : handleComputed m tn rel g r = .ok g2) {x : String}
    (hx : x ∈ g.nodes) : x ∈ g2.nodes := by
  unfold handleComputed at h
  cases hr : getRelationE m tn r with
  | error e => rw [hr, error_bind] at h; exact absurd h (by simp)
  | ok name =>
      rw [hr, ok_bind, pure_ok] at h
      exact (Except.ok.inj h) ▸ addEdge_nodes_mono _ _ _ _ hx

theorem handleTTU_nodes_mono {m : AuthorizationModel} {tn rel ts cr : String}
    {g g2 : DotGraph} (h : handleTTU m tn rel g ts cr = .ok g2) {x : String}
    (hx : x ∈ g.nodes) : x ∈ g2.nodes := by
  unfold handleTTU at h
  cases hr : getRelationE m tn ts with
  | error e => rw [hr, error_bind] at h; exact absurd h (by simp)
  | ok name =>
      rw [hr, ok_bind, pure_ok] at h
      exact (Except.ok.inj h) ▸
        foldl_nodes_mono _ (fun g a x hx => addEdge_nodes_mono _ _ _ _ hx) _ g x hx

mutual

theorem walkRewrite_nodes_mono (m : AuthorizationModel) (tn rel : String) :
    ∀ (us : Userset) (g g2 : DotGraph), walkRewrite m tn rel g us = .ok g2 →
      ∀ x ∈ g.nodes, x ∈ g2.nodes
  | .this, g, g2, h, x, hx => handleThis_nodes_mono h hx
  | .computedUserset r, g, g2, h, x, hx => handleComputed_nodes_mono h hx
  | .tupleToUserset ts cr, g, g2, h, x, hx => handleTTU_nodes_mono h hx
  | .union cs, g, g2, h, x, hx => walkRewriteList_nodes_mono m tn rel cs g g2 h x hx
  | .intersection cs, g, g2, h, x, hx => walkRewriteList_nodes_mono m tn rel cs g g2 h x hx
  | .difference b s, g, g2, h, x, hx => by
      simp only [walkRewrite] at h
      cases hb : walkRewrite m tn rel g b with
      | error e => rw [hb, error_bind] at h; exact absurd h (by simp)
      | ok g1 =>
          rw [hb, ok_bind] at h
          exact walkRewrite_nodes_mono m tn rel s g1 g2 h x
            (walkRewrite_nodes_mono m tn rel b g g1 hb x hx)

theorem walkRewriteList_nodes_mono (m : AuthorizationModel) (tn rel : String) :
    ∀ (cs : List Userset) (g g2 : DotGraph), walkRewriteList m tn rel g cs = .ok g2 →
      ∀ x ∈ g.nodes, x ∈ g2.nodes
  | [], g, g2, h, x, hx => by
      simp only [walkRewriteList, Except.ok.injEq] at h
      exact h ▸ hx
  | c :: cs, g, g2, h, x, hx => by
      simp only [walkRewriteList] at h
      cases hc : walkRewrite m tn rel g c with
      | error e => rw [hc, error_bind] at h; exact absurd h (by simp)
      | ok g1 =>
          rw [hc, ok_bind] at h
          exact walkRewriteList_nodes_mono m tn rel cs g1 g2 h x
            (walkRewrite_nodes_mono m tn rel c g g1 hc x hx)

end

theorem processRelation_nodes {m : AuthorizationModel} {td : TypeDefinition} {g g2 : DotGraph}
    {rel : String} (h : processRelation m td g rel = .ok g2) :
    (∀ x ∈ g.nodes, x ∈ g2.nodes) ∧ relationNodeName td.type_ rel ∈ g2.nodes := by
  unfold processRelation at h
  cases hl : td.relations.lookup rel with
  | none =>
      rw [hl] at h
      have h2 := Except.ok.inj h
      constructor
      · intro x hx
        exact h2 ▸ mem_addOrGetNode_of_mem _ hx
      · exact h2 ▸ self_mem_addOrGetNode _ _
  | some us =>
      rw [hl] at h
      constructor
      · intro x hx
        exact walkRewrite_nodes_mono m td.type_ rel us _ g2 h x (mem_addOrGetNode_of_mem _ hx)
      · exact walkRewrite_nodes_mono m td.type_ rel us _ g2 h _ (self_mem_addOrGetNode _ _)

theorem foldlM_processRelation_nodes (m : AuthorizationModel) (td : TypeDefinition) :
    ∀ (keys : List String) (g g2 : DotGraph),
      keys.foldlM (processRelation m td) g = .ok g2 →
      (∀ x ∈ g.nodes, x ∈ g2.nodes) ∧ ∀ r ∈ keys, relationNodeName td.type_ r ∈ g2.nodes
  | [], g, g2, h => by
      simp only [List.foldlM_nil, pure, Except.pure, Except.ok.injEq] at h
      exact ⟨fun x hx => h ▸ hx, by simp⟩
  | r :: keys, g, g2, h => by
      rw [List.foldlM_cons] at h
      cases ha : processRelation m td g r with
      | error e => rw [ha, error_bind] at h; exact absurd h (by simp)
      | ok g1 =>
          rw [ha, ok_bind] at h
          obtain ⟨hmono1, hself⟩ := processRelation_nodes ha
          obtain ⟨hmono2, hall⟩ := foldlM_processRelation_nodes m td keys g1 g2 h
          refine ⟨fun x hx => hmono2 x (hmono1 x hx), ?_⟩
          intro r2 hr2
          rcases List.mem_cons.mp hr2 with hr2 | hr2
          · exact hr2 ▸ hmono2 _ hself
          · exact hall r2 hr2

theorem processTypeDef_nodes {m : AuthorizationModel} {g g2 : DotGraph}
    {td : TypeDefinition} (h : processTypeDef m g td = .ok g2) :
    (∀ x ∈ g.nodes, x ∈ g2.nodes) ∧ ∀ lbl ∈ tdBase td, lbl ∈ g2.nodes := by
  unfold processTypeDef at h
  obtain ⟨hmono, hall⟩ := foldlM_processRelation_nodes m td _ _ g2 h
  have htype : td.type_ ∈ g2.nodes :=
    hmono _ (mem_addOrGetNode_of_mem _ (self_mem_addOrGetNode _ _))
  have hwild : td.type_ ++ ":*" ∈ g2.nodes := hmono _ (self_mem_addOrGetNode _ _)
  refine ⟨fun x hx =>
    hmono x (mem_addOrGetNode_of_mem _ (mem_addOrGetNode_of_mem _ hx)), ?_⟩
  intro lbl hlbl
  unfold tdBase at hlbl
  rcases List.mem_cons.mp hlbl with hlbl | hlbl
  · exact hlbl ▸ htype
  rcases List.mem_cons.mp hlbl with hlbl | hlbl
  · exact hlbl ▸ hwild
  simp only [List.mem_map] at hlbl
  obtain ⟨p, hp, hpe⟩ := hlbl
  refine hpe ▸ hall p.1 ?_
  exact (List.perm_insertionSort _ _).mem_iff.mpr (List.mem_map.mpr ⟨p, hp, rfl⟩)

theorem foldlM_processTypeDef_nodes (m : AuthorizationModel) :
    ∀ (tds : List TypeDefinition) (g g2 : DotGraph),
      tds.foldlM (processTypeDef m) g = .ok g2 →
      (∀ x ∈ g.nodes, x ∈ g2.nodes) ∧ ∀ td ∈ tds, ∀ lbl ∈ tdBase td, lbl ∈ g2.nodes
  | [], g, g2, h => by
      simp only [List.foldlM_nil, pure, Except.pure, Except.ok.injEq] at h
      exact ⟨fun x hx => h ▸ hx, by simp⟩
  | td :: tds, g, g2, h => by
      rw [List.foldlM_cons] at h
      cases ha : processTypeDef m g td with
      | error e => rw [ha, error_bind] at h; exact absurd h (by simp)
      | ok g1 =>
          rw [ha, ok_bind] at h
          obtain ⟨hmono1, hbase1⟩ := processTypeDef_nodes ha
          obtain ⟨hmono2, hbase2⟩ := foldlM_processTypeDef_nodes m tds g1 g2 h
          refine ⟨fun x hx => hmono2 x (hmono1 x hx), ?_⟩
          intro td2 htd2 lbl hlbl
          rcases List.mem_cons.mp htd2 with htd2 | htd2
          · exact hmono2 _ (hbase1 lbl (htd2 ▸ hlbl))
          · exact hbase2 td2 htd2 lbl hlbl

theorem buildGraph_base_subset {m : AuthorizationModel} {g : DotGraph}
    (hb : buildGraph m = .ok g) : ∀ lbl ∈ baseNodes m, lbl ∈ g.nodes := by
  intro lbl hlbl
  unfold baseNodes at hlbl
  obtain ⟨td, htd, hlbl⟩ := List.mem_flatMap.mp hlbl
  unfold buildGraph at hb
  refine (foldlM_processTypeDef_nodes m _ _ g hb).2 td ?_ lbl hlbl
  exact (List.perm_insertionSort _ _).mem_iff.mpr htd

theorem nodesOK_processRelation {m : AuthorizationModel} {td : TypeDefinition}
    {g g2 : DotGraph} {rel : String} (htd : td ∈ m.typeDefinitions)
    (hrel : rel ∈ td.relations.map Prod.fst)
    (husok : (match td.relations.lookup rel with
              | some us => usRefsOK m td.type_ rel us
              | none => true) = true)
    (hg : NodesOK m g) (h : processRelation m td g rel = .ok g2) : NodesOK m g2 := by
  have hdst : relationNodeName td.type_ rel ∈ baseNodes m := relNode_mem_base htd hrel
  unfold processRelation at h
  have hg1 : NodesOK m (addOrGetNode g (relationNodeName td.type_ rel)) :=
    nodesOK_addOrGetNode hdst hg
  cases hl : td.relations.lookup rel with
  | none =>
      rw [hl] at h
      exact (Except.ok.inj h) ▸ hg1
  | some us =>
      rw [hl] at h
      rw [hl] at husok
      exact nodesOK_walkRewrite m td.type_ rel hdst us _ g2 husok hg1 h

theorem nodesOK_foldl_keys {m : AuthorizationModel} {td : TypeDefinition}
    (htd : td ∈ m.typeDefinitions)
    (hok : ∀ r ∈ td.relations.map Prod.fst,
      (match td.relations.lookup r with
       | some us => usRefsOK m td.type_ r us
       | none => true) = true) :
    ∀ (keys : List String), (∀ r ∈ keys, r ∈ td.relations.map Prod.fst) →
      ∀ g g2 : DotGraph, NodesOK m g →
        keys.foldlM (processRelation m td) g = .ok g2 → NodesOK m g2
  | [], _, g, g2, hg, h => by
      simp only [List.foldlM_nil, pure, Except.pure, Except.ok.injEq] at h
      exact h ▸ hg
  | r :: keys, hkm, g, g2, hg, h => by
      rw [List.foldlM_cons] at h
      cases ha : processRelation m td g r with
      | error e => rw [ha, error_bind] at h; exact absurd h (by simp)
      | ok g1 =>
          rw [ha, ok_bind] at h
          have hrmem := hkm r (List.mem_cons_self r keys)
          exact nodesOK_foldl_keys htd hok keys
            (fun r2 hr2 => hkm r2 (List.mem_cons_of_mem r hr2)) g1 g2
            (nodesOK_processRelation htd hrmem (hok r hrmem) hg ha) h

theorem nodesOK_processTypeDef {m : AuthorizationModel} {g g2 : DotGraph}
    {td : TypeDefinition} (htd : td ∈ m.typeDefinitions)
    (hok : ((td.relations.map Prod.fst).all fun r =>
        match td.relations.lookup r with
        | some us => usRefsOK m td.type_ r us
        | none => true) = true)
    (hg : NodesOK m g) (h : processTypeDef m g td = .ok g2) : NodesOK m g2 := by
  unfold processTypeDef at h
  rw [List.all_eq_true] at hok
  have hg1 : NodesOK m (addOrGetNode (addOrGetNode g td.type_) (td.type_ ++ ":*")) :=
    nodesOK_addOrGetNode (wildcard_mem_base htd) (nodesOK_addOrGetNode (type_mem_base htd) hg)
  exact nodesOK_foldl_keys htd hok _
    (fun r hr => (List.perm_insertionSort _ _).mem_iff.mp hr) _ g2 hg1 h

theorem nodesOK_foldl_tds {m : AuthorizationModel}
    (hv : ∀ td ∈ m.typeDefinitions,
      ((td.relations.map Prod.fst).all fun r =>
        match td.relations.lookup r with
        | some us => usRefsOK m td.type_ r us
        | none => true) = true) :
    ∀ (tds : List TypeDefinition), (∀ td ∈ tds, td ∈ m.typeDefinitions) →
      ∀ g g2 : DotGraph, NodesOK m g →
        tds.foldlM (processTypeDef m) g = .ok g2 → NodesOK m g2
  | [], _, g, g2, hg, h => by
      simp only [List.foldlM_nil, pure, Except.pure, Except.ok.injEq] at h
      exact h ▸ hg
  | td :: tds, hmem, g, g2, hg, h => by
      rw [List.foldlM_cons] at h
      cases ha : processTypeDef m g td with
      | error e => rw [ha, error_bind] at h; exact absurd h (by simp)
      | ok g1 =>
          rw [ha, ok_bind] at h
          have htd := hmem td (List.mem_cons_self td tds)
          exact nodesOK_foldl_tds hv tds
            (fun td2 htd2 => hmem td2 (List.mem_cons_of_mem td htd2)) g1 g2
            (nodesOK_processTypeDef htd (hv td htd) hg ha) h

theorem nodesOK_buildGraph {m : AuthorizationModel} {g : DotGraph}
    (hv : modelRefsOK m = true) (hb : buildGraph m = .ok g) : NodesOK m g := by
  unfold modelRefsOK at hv
  rw [List.all_eq_true] at hv
  unfold buildGraph at hb
  have hempty : NodesOK m emptyGraph := by
    intro lbl hlbl
    exact absurd hlbl (by simp [emptyGraph])
  exact nodesOK_foldl_tds hv (sortedTypeDefs m)
    (fun td htd => (List.perm_insertionSort _ _).mem_iff.mp htd) emptyGraph g hempty hb

/-! ### Claim C8 -/

/-- C8: for every model whose unconditioned direct and tupleset references
point at defined types and relations, the pre-prune node set of a
successful build is exactly the base set
{types} ∪ {type wildcards} ∪ {type#relation} together with the decorated
condition-variant labels that are referenced by some edge; and after
pruning every remaining node is the source or target of some line. -/
theorem c8_node_set (m : AuthorizationModel) (g : DotGraph)
    (hv : modelRefsOK m = true) (hb : buildGraph m = .ok g) :
    (∀ lbl, lbl ∈ g.nodes ↔
        lbl ∈ baseNodes m ∨ (isDecorated lbl = true ∧ referencedBy g.lines lbl = true))
    ∧ ∀ lbl ∈ (removeNodesWithNoEdges g).nodes, referencedBy g.lines lbl = true := by
  have hnok := nodesOK_buildGraph hv hb
  have hbase := buildGraph_base_subset hb
  have hwf := wf_buildGraph hb
  constructor
  · intro lbl
    constructor
    · exact hnok lbl
    · intro h
      rcases h with h | ⟨hdec, href⟩
      · exact hbase lbl h
      · unfold referencedBy at href
        simp only [List.any_eq_true, Bool.or_eq_true, decide_eq_true_eq] at href
        obtain ⟨l, hlm, hor⟩ := href
        rcases hor with hor | hor
        · exact hor ▸ (hwf.2.2.2 l hlm).1
        · exact hor ▸ (hwf.2.2.2 l hlm).2
  · intro lbl hl
    unfold removeNodesWithNoEdges at hl
    simp only [List.mem_filter] at hl
    exact hl.2

/-- C8 witness: the with_conditions model satisfies the validation
hypothesis and its decorated node " user[with condition1]" is in the node
set exactly because it is referenced by an edge. -/
theorem c8_node_set_witness :
    modelRefsOK condModel = true
    ∧ buildGraph condModel = .ok
      (⟨["document", "document:*", "document#admin", " user[with condition1]",
         "document#viewer", " user[with condition3]:*", "document#writer",
         " user[with condition2]", "user", "user:*"],
        [⟨" user[with condition1]", "document#admin", "", "", 1⟩,
         ⟨" user[with condition3]:*", "document#viewer", "", "", 2⟩,
         ⟨" user[with condition2]", "document#writer", "", "", 3⟩], 3⟩ : DotGraph)
    ∧ (" user[with condition1]" ∈
        (⟨["document", "document:*", "document#admin", " user[with condition1]",
           "document#viewer", " user[with condition3]:*", "document#writer",
           " user[with condition2]", "user", "user:*"],
          [⟨" user[with condition1]", "document#admin", "", "", 1⟩,
           ⟨" user[with condition3]:*", "document#viewer", "", "", 2⟩,
           ⟨" user[with condition2]", "document#writer", "", "", 3⟩], 3⟩ : DotGraph).nodes
        ↔ " user[with condition1]" ∈ baseNodes condModel
          ∨ (isDecorated " user[with condition1]" = true
             ∧ referencedBy
                (⟨["document", "document:*", "document#admin", " user[with condition1]",
                   "document#viewer", " user[with condition3]:*", "document#writer",
                   " user[with condition2]", "user", "user:*"],
                  [⟨" user[with condition1]", "document#admin", "", "", 1⟩,
                   ⟨" user[with condition3]:*", "document#viewer", "", "", 2⟩,
                   ⟨" user[with condition2]", "document#writer", "", "", 3⟩],
                  3⟩ : DotGraph).lines " user[with condition1]" = true)) := by
  refine ⟨by decide, by decide, ?_⟩
  exact (c8_node_set condModel _ (by decide) (by decide)).1 " user[with condition1]"

end OFGA
